import Mathlib

/-!
Verification of the template-substitution and span-synthesis engine in
src/notebooks/revised_data_generator/generator.py (class FakeDataGenerator).

Strings are modelled as List Char.  Python string methods used by the source
(slicing with negative indices, strip, lower, replace, re.search, re.finditer)
are embedded below; randomness (random.random, random.choice, DataFrame.sample)
is modelled by explicit parameters.
-/

namespace AddrGen

/-- Char code of the opening brace. -/
def lbrace : Char := Char.ofNat 123

/-- Char code of the closing brace. -/
def rbrace : Char := Char.ofNat 125

/-- Char code of the opening square bracket. -/
def lbrack : Char := Char.ofNat 91

/-- Char code of the closing square bracket. -/
def rbrack : Char := Char.ofNat 93

/-- Half-open slice s[a:b] for nonnegative indices, as used on lists. -/
def slice (s : List Char) (a b : Nat) : List Char :=
  (s.drop a).take (b - a)

/-- Normalisation of a Python slice index: negative indices wrap by the
length, then the result is clamped to [0, length]. -/
def pyNorm (n : Nat) (i : Int) : Nat :=
  (max 0 (min (n : Int) (if i < 0 then i + n else i))).toNat

/-- Python slicing s[a:b] with possibly negative bounds. -/
def pySlice (s : List Char) (a b : Int) : List Char :=
  slice s (pyNorm s.length a) (pyNorm s.length b)

/-- Python str.lower, modelled character-wise. -/
def lowerLC (s : List Char) : List Char := s.map Char.toLower

/-- Python str.strip: drop whitespace from both ends. -/
def pyStrip (s : List Char) : List Char :=
  ((s.dropWhile Char.isWhitespace).reverse.dropWhile Char.isWhitespace).reverse

/-- Dictionary lookup (Python dict/Series indexing), as an association list. -/
def lookupV (m : List (List Char × List Char)) (k : List Char) : Option (List Char) :=
  match m with
  | [] => none
  | (a, v) :: t => if a = k then some v else lookupV t k

/-- Setting a key on a record (Python Series/dict item assignment). -/
def setAttr (r : List (List Char × List Char)) (k v : List Char) :
    List (List Char × List Char) :=
  match r with
  | [] => [(k, v)]
  | (a, b) :: t => if a = k then (k, v) :: t else (a, b) :: setAttr t k v

/-- Index of the first occurrence of a character (re.search for a single
character returns the match at the least index). -/
def firstIdxOf (c : Char) : List Char → Option Nat
  | [] => none
  | a :: t => if a = c then some 0 else (firstIdxOf c t).map Nat.succ

/-- Whether p is a leading block of s. -/
def hasLead (p s : List Char) : Bool := decide (List.take p.length s = p)

/-- Core of str.replace with fuel (the fuel only drives structural
recursion; it is always provisioned at the string length). -/
def replaceAllCore (p r : List Char) : Nat → List Char → List Char
  | 0, s => s
  | Nat.succ fuel, s =>
    match s with
    | [] => []
    | c :: cs =>
      if p ≠ [] ∧ hasLead p (c :: cs) = true then
        r ++ replaceAllCore p r fuel (List.drop (p.length - 1) cs)
      else
        c :: replaceAllCore p r fuel cs

/-- Python str.replace(old, new): replace all occurrences, scanning left to
right, non-overlapping.  (The source only calls it with a nonempty pattern.) -/
def replaceAll (p r : List Char) (s : List Char) : List Char :=
  replaceAllCore p r s.length s

/-- Python str.replace(old, new, 1): replace the first occurrence only. -/
def replaceOnce (p r : List Char) (s : List Char) : List Char :=
  match s with
  | [] => []
  | c :: cs =>
    if p ≠ [] ∧ hasLead p (c :: cs) = true then
      r ++ List.drop (p.length - 1) cs
    else
      c :: replaceOnce p r cs

/-- Whether q occurs as a contiguous block somewhere in s. -/
def occursB (q : List Char) : List Char → Bool
  | [] => q.isEmpty
  | c :: cs => hasLead q (c :: cs) || occursB q cs

/-- Character class of the placeholder grammar: [A-Z_0-9]. -/
def isClassChar (c : Char) : Bool := c.isUpper || c.isDigit || c = '_'

/-- Core of the placeholder scan with fuel (always provisioned at the
string length). -/
def scanTemplateCore : Nat → List Char → List (List Char)
  | 0, _ => []
  | Nat.succ fuel, s =>
    match s with
    | [] => []
    | c :: cs =>
      if c = lbrace then
        let run := cs.takeWhile isClassChar
        if run ≠ [] ∧ (cs.drop run.length).head? = some rbrace then
          run :: scanTemplateCore fuel (cs.drop run.length).tail
        else
          scanTemplateCore fuel cs
      else
        scanTemplateCore fuel cs

/-- The match list of re.finditer over the placeholder pattern: at each
opening brace, a maximal nonempty run of class characters followed by a
closing brace yields a match; otherwise the scan advances one character. -/
def scanTemplate (s : List Char) : List (List Char) :=
  scanTemplateCore s.length s

/-- Decimal digit character. -/
def digitChar (d : Nat) : Char := Char.ofNat (48 + d % 10)

/-- Core of decimal rendering, with fuel. -/
def natLCCore : Nat → Nat → List Char → List Char
  | 0, _, acc => acc
  | Nat.succ fuel, n, acc =>
    if n < 10 then digitChar n :: acc
    else natLCCore fuel (n / 10) (digitChar (n % 10) :: acc)

/-- Decimal rendering of a counter value (Python str(n)). -/
def natLC (n : Nat) : List Char := natLCCore (n + 1) n []

/-- Counter increment (collections.Counter keeps insertion order). -/
def bump (m : List (List Char × Nat)) (k : List Char) : List (List Char × Nat) :=
  match m with
  | [] => [(k, 1)]
  | (a, n) :: t => if a = k then (a, n + 1) :: t else (a, n) :: bump t k

/-- Counter lookup with default 0. -/
def countOf (m : List (List Char × Nat)) (k : List Char) : Nat :=
  match m with
  | [] => 0
  | (a, n) :: t => if a = k then n else countOf t k

/-- The first phase of get_template_entities: walk the matches, bump a
per-type counter, and emit the bare name on a first occurrence or
name ++ str(count) afterwards. -/
def buildRepl : List (List Char) → List (List Char × Nat) →
    List (List Char) × List (List Char × Nat)
  | [], m => ([], m)
  | e :: t, m =>
    let m1 := bump m e
    let n := countOf m1 e
    let id0 := if n = 1 then e else e ++ natLC n
    let rest := buildRepl t m1
    (id0 :: rest.1, rest.2)

/-- Brace-delimited token of a name. -/
def tokB (e : List Char) : List Char := lbrace :: (e ++ [rbrace])

/-- Bracket-delimited token of a name. -/
def tokR (e : List Char) : List Char := lbrack :: (e ++ [rbrack])

/-- The while-loop in get_template_entities for one entity type: with the
running count c, replace the first remaining bare token by the token
suffixed with c, then decrement, until the count reaches 1. -/
def renameLoop (e : List Char) : Nat → List Char → List Char
  | 0, t => t
  | 1, t => t
  | Nat.succ (Nat.succ c), t =>
    renameLoop e (c + 1) (replaceOnce (tokB e) (tokB (e ++ natLC (c + 2))) t)

/-- The renaming phase of get_template_entities, iterating the counter in
insertion order. -/
def applyRenames (m : List (List Char × Nat)) (t : List Char) : List Char :=
  match m with
  | [] => t
  | (e, c) :: rest => applyRenames rest (renameLoop e c t)

/-- FakeDataGenerator.get_template_entities: returns the template with
duplicate placeholders renamed, the ordered identifier list, and the
per-type counter. -/
def get_template_entities (template : List Char) :
    List Char × List (List Char) × List (List Char × Nat) :=
  let ms := scanTemplate template
  let br := buildRepl ms []
  (applyRenames br.2 template, br.1, br.2)

/-- Span record (entity_type, entity_value, start, end), as constructed by
_create_input_sample. -/
structure Span where
  entity_type : List Char
  entity_value : List Char
  start_position : Nat
  end_position : Nat
deriving DecidableEq, Repr

/-- Failure modes of the rendering loop: KeyError on a value-map miss,
IndexError from entity_value[0] on an empty value, AttributeError on a
brace with no closing brace, and fuel exhaustion standing for a
non-terminating loop. -/
inductive RenderErr where
  | keyError : List Char → RenderErr
  | indexError : RenderErr
  | malformed : RenderErr
  | fuelOut : RenderErr
deriving DecidableEq, Repr

/-- The vowels tested by the indefinite-article fix-up. -/
def vowels : List Char := ['a', 'e', 'i', 'o', 'u']

/-- The article condition of _create_input_sample (evaluated on the buffer
after substitution): the two characters before the value are "a " at
position 2, or the three characters before are " a " (case-insensitive). -/
def artCond (s1 : List Char) (es : Nat) : Bool :=
  decide ((lowerLC (pySlice s1 ((es : Int) - 2) (es : Int)) = ("a ").data ∧ es = 2) ∨
    lowerLC (pySlice s1 ((es : Int) - 3) (es : Int)) = (" a ").data)

/-- Span constructed at one loop iteration: digits-stripped type, the
(possibly lower-cased) stripped value, and offsets in the current buffer. -/
def mkSp (ename v : List Char) (es : Nat) (tl : Bool) : Span :=
  { entity_type := ename
    entity_value := if tl then lowerLC v else v
    start_position := es
    end_position := es + v.length }

/-- Final text and span list: the buffer is lower-cased at the end when the
lower-casing coin flip was selected. -/
def finalizeR (tl : Bool) (s : List Char) (acc : List Span) :
    List Char × List Span :=
  (if tl then lowerLC s else s, acc)

/-- The while-loop of _create_input_sample.  State: remaining fuel, the
mutable sentence buffer, the spans recorded so far, and the cursor i.
Each iteration finds the first opening brace, the first closing brace after
it, looks the enclosed name up in the value map (KeyError on a miss),
strips the value, substitutes it, applies the indefinite-article fix-up
(IndexError when the value is empty and the article pattern matches),
records a span and advances the cursor. -/
def renderLoop (values : List (List Char × List Char)) (tl : Bool) :
    Nat → List Char → List Span → Nat → Except RenderErr (List Char × List Span)
  | 0, _, _, _ => Except.error RenderErr.fuelOut
  | Nat.succ fuel, s, acc, i =>
    if i < s.length then
      match firstIdxOf lbrace s with
      | none => Except.ok (finalizeR tl s acc)
      | some es =>
        match firstIdxOf rbrace (s.drop es) with
        | none => Except.error RenderErr.malformed
        | some o =>
          let ee := es + o
          let w := slice s (es + 1) ee
          match lookupV values w with
          | none => Except.error (RenderErr.keyError w)
          | some v0 =>
            let v := pyStrip v0
            let ename := w.filter (fun c => !(c.isDigit))
            let s1 := s.take es ++ v ++ s.drop (ee + 1)
            if artCond s1 es then
              match v with
              | [] => Except.error RenderErr.indexError
              | c :: cs =>
                if c.toLower ∈ vowels then
                  renderLoop values tl fuel
                    (pySlice s1 0 ((es : Int) - 1) ++ ('n' :: ' ' :: []) ++ s1.drop es)
                    (acc ++ [mkSp ename (c :: cs) (es + 1) tl])
                    (es + 1 + (c :: cs).length)
                else
                  renderLoop values tl fuel s1 (acc ++ [mkSp ename (c :: cs) es tl])
                    (es + (c :: cs).length)
            else
              renderLoop values tl fuel s1 (acc ++ [mkSp ename v es tl])
                (es + v.length)
    else
      Except.ok (finalizeR tl s acc)

/-- Number of opening braces, used to provision fuel for the loop. -/
def braceCount (s : List Char) : Nat := (s.filter (fun c => c = lbrace)).length

/-- The rendering core of FakeDataGenerator._create_input_sample: text and
spans from a template and a value map; tl is the outcome of the one
lower-casing coin flip. -/
def render (t : List Char) (values : List (List Char × List Char)) (tl : Bool) :
    Except RenderErr (List Char × List Span) :=
  renderLoop values tl (braceCount t + 1) t [] 0

/-- Rendered sample: full text, spans, and the masked template. -/
structure InputSample where
  full_text : List Char
  spans : List Span
  masked : List Char
deriving DecidableEq, Repr

/-- Character map converting brace delimiters to bracket delimiters. -/
def braceToBrack (c : Char) : Char :=
  if c = lbrace then lbrack else if c = rbrace then rbrack else c

/-- Modelled from the spec: the InputSample constructor comes from the
external presidio_evaluator package, which is not part of this repository's
sources; per the spec's data model, the stored masked string is the
template with braces converted to brackets. -/
def mkInputSample (full_text : List Char) (spans : List Span)
    (template : List Char) : InputSample :=
  { full_text := full_text, spans := spans, masked := template.map braceToBrack }

/-- FakeDataGenerator._create_input_sample: render and package a sample. -/
def createInputSample (t : List Char) (values : List (List Char × List Char))
    (tl : Bool) : Except RenderErr InputSample :=
  match render t values tl with
  | Except.error e => Except.error e
  | Except.ok r => Except.ok (mkInputSample r.1 r.2 t)

/-- Canonical PERSON label. -/
def personT : List Char := ("PERSON").data

/-- Canonical LOCATION label. -/
def locationT : List Char := ("LOCATION").data

/-- The location group of _consolidate_names, in source order. -/
def locationsL : List (List Char) :=
  [("LOCATION").data, ("CITY").data, ("STATE").data, ("COUNTRY").data,
   ("ADDRESS").data, ("STREET").data]

/-- The name group of _consolidate_names, in source order. -/
def namesL : List (List Char) :=
  [("FIRST_NAME").data, ("LAST_NAME").data, ("PERSON").data]

/-- Per-span consolidation: names first, then locations, as in the source. -/
def consolidateSpan (sp : Span) : Span :=
  if sp.entity_type ∈ namesL then { sp with entity_type := personT }
  else if sp.entity_type ∈ locationsL then { sp with entity_type := locationT }
  else sp

/-- Masked-string consolidation: replace every bracketed location token,
then every bracketed name token, by the canonical bracketed token. -/
def consolidateMasked (m : List Char) : List Char :=
  let m1 := locationsL.foldl (fun acc l => replaceAll (tokR l) (tokR locationT) acc) m
  namesL.foldl (fun acc n => replaceAll (tokR n) (tokR personT) acc) m1

/-- FakeDataGenerator._consolidate_names. -/
def consolidateNames (s : InputSample) : InputSample :=
  { full_text := s.full_text
    spans := s.spans.map consolidateSpan
    masked := consolidateMasked s.masked }

/-- FakeDataGenerator._prep_templates on one template: strip, then convert
square brackets to braces. -/
def prepTemplate (t : List Char) : List Char :=
  replaceAll [rbrack] [rbrace] (replaceAll [lbrack] [lbrace] (pyStrip t))

/-- FakeDataGenerator._prep_templates. -/
def prepTemplates (ts : List (List Char)) : List (List Char) :=
  ts.map prepTemplate

/-- Template initialisation in FakeDataGenerator.__init__: a falsy template
argument (None or the empty list) stores None; otherwise the raw templates
are stored unchanged when the flag declares them already prepared, and are
converted by _prep_templates when it does not. -/
def initTemplates (templates : Option (List (List Char))) (ifPrep : Bool) :
    Option (List (List Char)) :=
  match templates with
  | none => none
  | some ts =>
    if ts = [] then none
    else if ifPrep then some ts else some (prepTemplates ts)

/-- Identity record: attribute name to value, as an association list. -/
def Record : Type := List (List Char × List Char)

instance : DecidableEq Record := by
  unfold Record; infer_instance

/-- The row predicate of one isin-filter step: the attribute is present and
its value belongs to the allowed list. -/
def attrIn (r : Record) (k : List Char) (allowed : List (List Char)) : Bool :=
  match lookupV r k with
  | some v => allowed.contains v
  | none => false

/-- FakeDataGenerator._filter_fake_pii: two sequential subset steps; a
falsy constraint (None or an empty list, by Python truthiness) leaves the
pool unchanged. -/
def filterFakePii (pool : List Record) (genders namesets : Option (List (List Char))) :
    List Record :=
  let s1 :=
    match genders with
    | none => pool
    | some gs => if gs = [] then pool else pool.filter (fun r => attrIn r ("GENDER").data gs)
  match namesets with
  | none => s1
  | some ns => if ns = [] then s1 else s1.filter (fun r => attrIn r ("NAMESET").data ns)

/-- The combined pure predicate that one row must satisfy to survive
filtering. -/
def recordPasses (genders namesets : Option (List (List Char))) (r : Record) : Bool :=
  (match genders with
   | none => true
   | some gs => if gs = [] then true else attrIn r ("GENDER").data gs) &&
  (match namesets with
   | none => true
   | some ns => if ns = [] then true else attrIn r ("NAMESET").data ns)

/-- Failure modes of one sampling attempt. -/
inductive GenErr where
  | emptyPool : GenErr
  | noTemplates : GenErr
  | poolKeyError : List Char → GenErr
  | renderErr : RenderErr → GenErr
deriving DecidableEq, Repr

/-- FakeDataGenerator._get_additional_entity: one uniformly sampled row of
the full pool, indexed at the named attribute (KeyError when absent); the
row choice is modelled by an index parameter. -/
def getAdditionalEntity (pool : List Record) (idx : Nat) (e : List Char) :
    Except GenErr (List Char) :=
  match pool with
  | [] => Except.error GenErr.emptyPool
  | r0 :: rest =>
    match lookupV ((r0 :: rest).getD (idx % (r0 :: rest).length) r0) e with
    | some v => Except.ok v
    | none => Except.error (GenErr.poolKeyError e)

/-- The inner while-loop of _add_duplicated_entities for one entity type:
attach ENTITY<c>, ENTITY<c-1>, ..., ENTITY2 to the working record, each
value drawn from the full pool. -/
def addDupLoop (pool : List Record) (e : List Char) :
    Nat → List Nat → Record → Except GenErr (Record × List Nat)
  | 0, idxs, r => Except.ok (r, idxs)
  | 1, idxs, r => Except.ok (r, idxs)
  | Nat.succ (Nat.succ c), idxs, r =>
    match getAdditionalEntity pool (idxs.headD 0) e with
    | Except.error err => Except.error err
    | Except.ok v =>
      addDupLoop pool e (c + 1) idxs.tail (setAttr r (e ++ natLC (c + 2)) v)

/-- FakeDataGenerator._add_duplicated_entities: iterate the counter and, for
each type required more than once, attach the suffixed duplicate values to
the working record.  The shared pool is only read. -/
def addDuplicatedEntities (pool : List Record) (counts : List (List Char × Nat))
    (idxs : List Nat) (r : Record) : Except GenErr (Record × List Nat) :=
  match counts with
  | [] => Except.ok (r, idxs)
  | (e, c) :: rest =>
    match addDupLoop pool e c idxs r with
    | Except.error err => Except.error err
    | Except.ok rc => addDuplicatedEntities pool rest rc.2 rc.1

/-- Value map construction in sample_examples: identifiers present in the
augmented record get its value; absent identifiers get the empty string
after a diagnostic warning. -/
def buildValues (repl : List (List Char)) (r : Record) :
    List (List Char × List Char) :=
  repl.map (fun h =>
    (h, match lookupV r h with
        | some v => v
        | none => []))

/-- Generator state threaded through one sampling attempt: the prepared
record pool (read-only in the source). -/
structure GenState where
  pool : List Record
deriving DecidableEq

/-- One iteration of FakeDataGenerator.sample_examples, for the
configuration include_metadata = false and span_to_tag = false (metadata
attachment and the external tagger are out of scope).  Randomness is
modelled by the template index, the row index and the duplicate-draw index
stream; empty-subset sampling fails (pandas raises on sampling an empty
frame) with the emptyPool outcome. -/
def sampleOnce (st : GenState) (templates : List (List Char))
    (tIdx rIdx : Nat) (idxs : List Nat)
    (genders namesets : Option (List (List Char))) (tl : Bool) :
    Except GenErr InputSample × GenState :=
  match templates with
  | [] => (Except.error GenErr.noTemplates, st)
  | t0 :: trest =>
    let original := (t0 :: trest).getD (tIdx % (t0 :: trest).length) t0
    let subset := filterFakePii st.pool genders namesets
    match subset with
    | [] => (Except.error GenErr.emptyPool, st)
    | r0 :: srest =>
      let fakeRow := (r0 :: srest).getD (rIdx % (r0 :: srest).length) r0
      let gte := get_template_entities original
      match addDuplicatedEntities st.pool gte.2.2 idxs fakeRow with
      | Except.error err => (Except.error err, st)
      | Except.ok rc =>
        let values := buildValues gte.2.1 rc.1
        match createInputSample gte.1 values tl with
        | Except.error err => (Except.error (GenErr.renderErr err), st)
        | Except.ok sample => (Except.ok (consolidateNames sample), st)

/-! ## Template shape

Pipeline templates alternate literal segments and placeholders.  The
assembled form below is used to state theorems about the parser and the
masked-string consolidation. -/

/-- Assembled template: a leading literal, then (name, following literal)
pairs, each name wrapped in the given delimiters. -/
def assemble (op cl : Char) (l0 : List Char) :
    List (List Char × List Char) → List Char
  | [] => l0
  | (n, l) :: ps => l0 ++ op :: (n ++ cl :: assemble op cl l ps)

/-- Well-formed literal: free of both delimiter families. -/
def litOK (l : List Char) : Prop :=
  ∀ c ∈ l, c ≠ lbrace ∧ c ≠ rbrace ∧ c ≠ lbrack ∧ c ≠ rbrack

/-- Well-formed placeholder name: nonempty and inside the [A-Z_0-9] class. -/
def nameOK (n : List Char) : Prop :=
  n ≠ [] ∧ ∀ c ∈ n, isClassChar c = true

instance decLitOK (l : List Char) : Decidable (litOK l) := by
  unfold litOK
  infer_instance

instance decNameOK (n : List Char) : Decidable (nameOK n) := by
  unfold nameOK
  infer_instance

/-- Digit-free name (a base entity type with no numeric suffix). -/
def nameNoDigit (n : List Char) : Prop := ∀ c ∈ n, c.isDigit = false

/-- Names of an assembled pair list. -/
def namesOf (ps : List (List Char × List Char)) : List (List Char) :=
  ps.map Prod.fst

/-- Rebuild a pair list with a new name list (same literals). -/
def withNames (ps : List (List Char × List Char)) (ns : List (List Char)) :
    List (List Char × List Char) :=
  List.zip ns (ps.map Prod.snd)

/-! ## Specification-side definitions (written from the spec's words, for
comparison with the source functions) -/

/-- Span consolidation as the spec words it: a span whose type is in the
PERSON group becomes PERSON, one in the LOCATION group becomes LOCATION. -/
def specGroupMap (n : List Char) : List Char :=
  if n ∈ namesL then personT
  else if n ∈ locationsL then locationT
  else n

/-- Span remapping per the spec's consolidation contract. -/
def specConsolidateSpan (sp : Span) : Span :=
  { sp with entity_type := specGroupMap sp.entity_type }

/-- The name-level effect of the two sequential replace loops of
_consolidate_names (locations first, then names). -/
def gSub (n : List Char) : List Char :=
  namesL.foldl (fun m e => if m = e then personT else m)
    (locationsL.foldl (fun m e => if m = e then locationT else m) n)

/-- Identifier list as the claim words it: in scan order, the first
occurrence of a type keeps the bare name and the k-th occurrence (k >= 2)
is the name suffixed with k. -/
def srlAux : List (List Char) → List (List Char) → List (List Char)
  | _, [] => []
  | pre, n :: t =>
    (if List.count n pre + 1 = 1 then n else n ++ natLC (List.count n pre + 1)) ::
      srlAux (pre ++ [n]) t

/-- Identifier list in scan order (claim part (b), amended). -/
def specRenameList (ns : List (List Char)) : List (List Char) :=
  srlAux [] ns

/-- Template renaming as the source actually performs it: for a type with
total count c, the j-th occurrence (1-based) is suffixed with c - j + 1
for j < c, and the last occurrence keeps the bare name. -/
def srrAux (all : List (List Char)) : List (List Char) → List (List Char) → List (List Char)
  | _, [] => []
  | pre, n :: t =>
    (if List.count n pre + 1 = List.count n all then n
     else n ++ natLC (List.count n all - List.count n pre)) ::
      srrAux all (pre ++ [n]) t

/-- Reverse-suffix renaming of a name list (claim part (a), amended). -/
def specRenameRev (ns : List (List Char)) : List (List Char) :=
  srrAux ns [] ns

/-- List-level replaceOnce: rename the first occurrence of a name. -/
def listReplOnce (ns : List (List Char)) (e f : List Char) : List (List Char) :=
  match ns with
  | [] => []
  | n :: t => if n = e then f :: t else n :: listReplOnce t e f

/-- List-level renameLoop. -/
def renameLoopL (e : List Char) : Nat → List (List Char) → List (List Char)
  | 0, ns => ns
  | 1, ns => ns
  | Nat.succ (Nat.succ c), ns =>
    renameLoopL e (c + 1) (listReplOnce ns e (e ++ natLC (c + 2)))

/-- Absence of suffix collisions: no name of the template equals another
name suffixed with one of the counts the renaming loop will emit. -/
def noCollision (ns : List (List Char)) : Prop :=
  ∀ e ∈ ns, ∀ f ∈ ns, ∀ k ∈ List.range (List.count f ns + 1),
    2 ≤ k → e ≠ f ++ natLC k

instance decNoCollision (ns : List (List Char)) : Decidable (noCollision ns) := by
  unfold noCollision
  infer_instance

/-- Apply the per-sample casing decision to a string. -/
def mlower (tl : Bool) (s : List Char) : List Char :=
  if tl then lowerLC s else s

/-- Reverse renaming restricted to the entity types in K (the types whose
counter entries have already been processed). -/
def srrAuxOn (K : List (List Char)) (all : List (List Char)) :
    List (List Char) → List (List Char) → List (List Char)
  | _, [] => []
  | pre, n :: t =>
    (if n ∈ K then
      (if List.count n pre + 1 = List.count n all then n
       else n ++ natLC (List.count n all - List.count n pre))
     else n) :: srrAuxOn K all (pre ++ [n]) t

/-- Countdown renaming of the occurrences of one type: with budget c, an
occurrence is renamed with suffix c (when 2 <= c) and the budget drops,
otherwise it is kept bare. -/
def rrevL (e : List Char) : Nat → List (List Char) → List (List Char)
  | _, [] => []
  | c, n :: t =>
    if n = e then
      (if 2 ≤ c then (e ++ natLC c) :: rrevL e (c - 1) t else n :: rrevL e c t)
    else n :: rrevL e c t

/-- List-level view of the whole renaming phase. -/
def applyRenamesL : List (List Char × Nat) → List (List Char) → List (List Char)
  | [], ns => ns
  | (e, c) :: rest, ns => applyRenamesL rest (renameLoopL e c ns)

/-- Pair-level replaceOnce on an assembled template's names. -/
def lrOnceP (ps : List (List Char × List Char)) (e f : List Char) :
    List (List Char × List Char) :=
  match ps with
  | [] => []
  | (n, l) :: t => if n = e then (f, l) :: t else (n, l) :: lrOnceP t e f

/-- Pair-level renaming of all names by a function. -/
def mapNamesP (f : List Char → List Char) (ps : List (List Char × List Char)) :
    List (List Char × List Char) :=
  ps.map (fun p => (f p.1, p.2))

/-- The non-canonical group members: every consolidation-group entity type
other than the canonical labels PERSON and LOCATION. -/
def strictMembers : List (List Char) :=
  [("FIRST_NAME").data, ("LAST_NAME").data, ("CITY").data, ("STATE").data,
   ("COUNTRY").data, ("ADDRESS").data, ("STREET").data]

/-- Character map converting square brackets to braces (pointwise form of
the two replace calls in _prep_templates). -/
def brkSub (c : Char) : Char :=
  if c = lbrack then lbrace else if c = rbrack then rbrace else c

/-- The keys _add_duplicated_entities attaches for one counter entry. -/
def dupKeys (e : List Char) (c : Nat) : List (List Char) :=
  (List.range c).filterMap (fun j => if 2 ≤ j + 1 then some (e ++ natLC (j + 1)) else none)

/-- All keys attached for a counter. -/
def dupKeysAll (counts : List (List Char × Nat)) : List (List Char) :=
  counts.flatMap (fun p => dupKeys p.1 p.2)

/-- Loop invariant of the renderer: a recorded span is consistent with the
current buffer s and cursor i — its end is start plus the value length, it
lies before the cursor and inside the buffer, the (possibly lower-cased)
buffer slice at its offsets equals the stored value, and a nonempty stored
value never ends in whitespace (it came from str.strip). -/
def spanOk (tl : Bool) (s : List Char) (i : Nat) (sp : Span) : Prop :=
  sp.end_position = sp.start_position + sp.entity_value.length ∧
  sp.end_position ≤ i ∧
  sp.end_position ≤ s.length ∧
  mlower tl (slice s sp.start_position sp.end_position) = sp.entity_value ∧
  (∀ c, sp.entity_value.getLast? = some c → c.isWhitespace = false)

/-- Validity of a span against the final rendered text. -/
def spanFinal (ft : List Char) (sp : Span) : Prop :=
  sp.end_position = sp.start_position + sp.entity_value.length ∧
  sp.end_position ≤ ft.length ∧
  slice ft sp.start_position sp.end_position = sp.entity_value

/-! ## Basic lemmas about the string model -/

deriving instance DecidableEq for Except

theorem replaceAllCore_fuel (p r : List Char) :
    ∀ (f1 : Nat) (s : List Char) (f2 : Nat), s.length ≤ f1 → s.length ≤ f2 →
      replaceAllCore p r f1 s = replaceAllCore p r f2 s := by
  intro f1
  induction f1 with
  | zero =>
    intro s f2 h1 _
    have hs : s = [] := List.eq_nil_of_length_eq_zero (by omega)
    subst hs
    cases f2 <;> rfl
  | succ g1 ih =>
    intro s f2 h1 h2
    match s with
    | [] => cases f2 <;> rfl
    | c :: cs =>
      match f2 with
      | 0 => simp at h2
      | Nat.succ g2 =>
        simp only [replaceAllCore]
        split
        · rw [ih (List.drop (p.length - 1) cs) g2
            (by simp only [List.length_drop]; simp at h1; omega)
            (by simp only [List.length_drop]; simp at h2; omega)]
        · rw [ih cs g2 (by simp at h1; omega) (by simp at h2; omega)]

theorem replaceAll_nil (p r : List Char) : replaceAll p r [] = [] := rfl

theorem replaceAll_cons (p r : List Char) (c : Char) (cs : List Char) :
    replaceAll p r (c :: cs) =
      if p ≠ [] ∧ hasLead p (c :: cs) = true then
        r ++ replaceAll p r (List.drop (p.length - 1) cs)
      else
        c :: replaceAll p r cs := by
  unfold replaceAll
  have h0 : (c :: cs).length = Nat.succ cs.length := rfl
  rw [h0]
  simp only [replaceAllCore]
  split
  · rw [replaceAllCore_fuel p r cs.length (List.drop (p.length - 1) cs)
      (List.drop (p.length - 1) cs).length
      (by simp only [List.length_drop]; omega) (by omega)]
  · rfl

theorem scanTemplateCore_fuel :
    ∀ (f1 : Nat) (s : List Char) (f2 : Nat), s.length ≤ f1 → s.length ≤ f2 →
      scanTemplateCore f1 s = scanTemplateCore f2 s := by
  intro f1
  induction f1 with
  | zero =>
    intro s f2 h1 _
    have hs : s = [] := List.eq_nil_of_length_eq_zero (by omega)
    subst hs
    cases f2 <;> rfl
  | succ g1 ih =>
    intro s f2 h1 h2
    match s with
    | [] => cases f2 <;> rfl
    | c :: cs =>
      match f2 with
      | 0 => simp at h2
      | Nat.succ g2 =>
        simp only [scanTemplateCore]
        split
        · split
          · rw [ih ((cs.drop (cs.takeWhile isClassChar).length).tail) g2
              (by simp only [List.length_tail, List.length_drop]; simp at h1; omega)
              (by simp only [List.length_tail, List.length_drop]; simp at h2; omega)]
          · rw [ih cs g2 (by simp at h1; omega) (by simp at h2; omega)]
        · rw [ih cs g2 (by simp at h1; omega) (by simp at h2; omega)]

theorem scanTemplate_nil : scanTemplate [] = [] := rfl

theorem scanTemplate_cons (c : Char) (cs : List Char) :
    scanTemplate (c :: cs) =
      if c = lbrace then
        if (cs.takeWhile isClassChar) ≠ [] ∧
            (cs.drop (cs.takeWhile isClassChar).length).head? = some rbrace then
          (cs.takeWhile isClassChar) ::
            scanTemplate (cs.drop (cs.takeWhile isClassChar).length).tail
        else
          scanTemplate cs
      else
        scanTemplate cs := by
  unfold scanTemplate
  have h0 : (c :: cs).length = Nat.succ cs.length := rfl
  rw [h0]
  simp only [scanTemplateCore]
  split
  · split
    · rw [scanTemplateCore_fuel cs.length
        ((cs.drop (cs.takeWhile isClassChar).length).tail)
        ((cs.drop (cs.takeWhile isClassChar).length).tail).length
        (by simp only [List.length_tail, List.length_drop]; omega) (by omega)]
    · rfl
  · rfl

theorem hasLead_iff (p s : List Char) :
    hasLead p s = true ↔ List.take p.length s = p := by
  simp [hasLead]

theorem hasLead_cons_ne (q0 c : Char) (qt cs : List Char) (h : c ≠ q0) :
    hasLead (q0 :: qt) (c :: cs) = false := by
  simp only [hasLead, List.length_cons, List.take_succ_cons, decide_eq_false_iff_not]
  intro he
  injection he with h1 h2
  exact h h1

theorem firstIdxOf_spec (x : Char) (s : List Char) (k : Nat)
    (h : firstIdxOf x s = some k) :
    k < s.length ∧ s[k]? = some x ∧ ∀ j, j < k → s[j]? ≠ some x := by
  induction s generalizing k with
  | nil => simp [firstIdxOf] at h
  | cons a t ih =>
    by_cases hax : a = x
    · simp [firstIdxOf, hax] at h
      subst h
      simp [hax]
    · simp only [firstIdxOf, if_neg hax] at h
      match hk : firstIdxOf x t with
      | none => rw [hk] at h; simp at h
      | some k0 =>
        rw [hk] at h
        simp at h
        subst h
        obtain ⟨h1, h2, h3⟩ := ih k0 hk
        refine ⟨by simpa using h1, by simpa using h2, ?_⟩
        intro j hj
        match j with
        | 0 => simpa using hax
        | Nat.succ j0 =>
          simp only [List.getElem?_cons, Nat.succ_ne_zero, if_neg]
          simpa using h3 j0 (by omega)

theorem firstIdxOf_append (x : Char) (a b : List Char) (h : ∀ c ∈ a, c ≠ x) :
    firstIdxOf x (a ++ x :: b) = some a.length := by
  induction a with
  | nil => simp [firstIdxOf]
  | cons c t ih =>
    have hc : c ≠ x := h c (by simp)
    simp only [List.cons_append, firstIdxOf, if_neg hc, List.append_eq,
      ih (fun d hd => h d (by simp [hd]))]
    simp

theorem slice_front (u v : List Char) (a b : Nat) (h : b ≤ u.length) :
    slice (u ++ v) a b = slice u a b := by
  unfold slice
  rw [List.drop_append_eq_append_drop, List.take_append_eq_append_take, List.length_drop]
  by_cases ha : a ≤ u.length
  · have h0 : b - a - (u.length - a) = 0 := by omega
    rw [h0]
    simp
  · have h0 : b - a = 0 := by omega
    rw [h0]
    simp

theorem slice_take (k : Nat) (s : List Char) (a b : Nat) (h : b ≤ k) :
    slice (List.take k s) a b = slice s a b := by
  unfold slice
  rw [List.drop_take]
  rw [List.take_take]
  have : min (b - a) (k - a) = b - a := by omega
  rw [this]

theorem slice_mid (u w v : List Char) :
    slice (u ++ (w ++ v)) u.length (u.length + w.length) = w := by
  unfold slice
  rw [List.drop_left]
  have h : u.length + w.length - u.length = w.length := by omega
  rw [h, List.take_left]

theorem slice_len (s : List Char) (a b : Nat) (ha : a ≤ b) (hb : b ≤ s.length) :
    (slice s a b).length = b - a := by
  unfold slice
  rw [List.length_take, List.length_drop]
  omega

theorem slice_nil_of_ge (s : List Char) (a b : Nat) (h : b ≤ a) :
    slice s a b = [] := by
  unfold slice
  have : b - a = 0 := by omega
  rw [this]
  simp

theorem slice_lower (s : List Char) (a b : Nat) :
    slice (lowerLC s) a b = lowerLC (slice s a b) := by
  unfold slice lowerLC
  rw [← List.map_drop, ← List.map_take]

theorem lookupV_mem (values : List (List Char × List Char)) (k v : List Char)
    (h : lookupV values k = some v) : (k, v) ∈ values := by
  induction values with
  | nil => simp [lookupV] at h
  | cons p t ih =>
    match p with
    | (a, b) =>
      by_cases hak : a = k
      · simp [lookupV, hak] at h
        simp [hak, h]
      · simp only [lookupV, if_neg hak] at h
        simp [ih h]

theorem toLower_eq_space (c : Char) (h : Char.toLower c = ' ') : c = ' ' := by
  unfold Char.toLower at h
  simp only [] at h
  by_cases hc : c.toNat ≥ 65 ∧ c.toNat ≤ 90
  · rw [if_pos hc] at h
    exfalso
    have hv : (c.toNat + 32).isValidChar := by
      unfold Nat.isValidChar
      left
      omega
    have h1 : (Char.ofNat (c.toNat + 32)).toNat = c.toNat + 32 := by
      unfold Char.ofNat
      rw [dif_pos hv]
      unfold Char.ofNatAux
      rfl
    rw [h] at h1
    have h2 : (' ' : Char).toNat = 32 := by decide
    omega
  · rw [if_neg hc] at h
    exact h

theorem toLower_not_ws (c : Char) (h : c.isWhitespace = false) :
    (Char.toLower c).isWhitespace = false := by
  unfold Char.toLower
  simp only []
  by_cases hc : c.toNat ≥ 65 ∧ c.toNat ≤ 90
  · rw [if_pos hc]
    have hv : (c.toNat + 32).isValidChar := by
      unfold Nat.isValidChar
      left
      omega
    have h1 : (Char.ofNat (c.toNat + 32)).toNat = c.toNat + 32 := by
      unfold Char.ofNat
      rw [dif_pos hv]
      unfold Char.ofNatAux
      rfl
    unfold Char.isWhitespace
    simp only [Bool.or_eq_false_iff, decide_eq_false_iff_not]
    refine ⟨⟨⟨?_, ?_⟩, ?_⟩, ?_⟩ <;> (intro he; rw [he] at h1; simp at h1; try omega)
  · rw [if_neg hc]
    exact h

/-! ## Claim C4: article correction on concrete inputs -/

/-- C4: rendering "I saw a {ANIMAL}" with ANIMAL bound to "elephant" (and
lower-casing not selected) yields "I saw an elephant" with a single span
covering exactly "elephant"; with ANIMAL bound to "dog" it yields
"I saw a dog" with the article unchanged and the span covering "dog". -/
theorem c4_article_correction :
    render (("I saw a {ANIMAL}").data) [((("ANIMAL").data), (("elephant").data))] false =
      Except.ok ((("I saw an elephant").data),
        [{ entity_type := ("ANIMAL").data, entity_value := ("elephant").data,
           start_position := 9, end_position := 17 }]) ∧
    slice (("I saw an elephant").data) 9 17 = ("elephant").data ∧
    render (("I saw a {ANIMAL}").data) [((("ANIMAL").data), (("dog").data))] false =
      Except.ok ((("I saw a dog").data),
        [{ entity_type := ("ANIMAL").data, entity_value := ("dog").data,
           start_position := 8, end_position := 11 }]) ∧
    slice (("I saw a dog").data) 8 11 = ("dog").data := by
  refine ⟨by decide, by decide, by decide, by decide⟩

/-! ## Claim C6: a missing attribute placed after an indefinite article -/

/-- C6: sample_examples substitutes the empty string for a placeholder
absent from the record (first conjunct), but rendering the template
"I saw a {FOO}" with that empty value raises IndexError inside the
article fix-up (entity_value[0] on an empty string) instead of
continuing non-fatally as the spec requires. -/
theorem c6_empty_value_after_article_raises :
    buildValues [("FOO").data] [] = [((("FOO").data), [])] ∧
    render (("I saw a {FOO}").data) (buildValues [("FOO").data] []) false =
      Except.error RenderErr.indexError := by
  refine ⟨by decide, by decide⟩

/-! ## Claim C5: empty filtered pool fails the attempt -/

/-- C5: when the gender/nameset filter leaves an empty record subset, the
sampling attempt fails with the empty-pool outcome (the source raises from
sampling an empty frame) instead of returning a sample. -/
theorem c5_empty_filtered_pool_fails
    (st : GenState) (t0 : List Char) (trest : List (List Char)) (tIdx rIdx : Nat)
    (idxs : List Nat) (genders namesets : Option (List (List Char))) (tl : Bool)
    (h : filterFakePii st.pool genders namesets = []) :
    sampleOnce st (t0 :: trest) tIdx rIdx idxs genders namesets tl =
      (Except.error GenErr.emptyPool, st) := by
  simp only [sampleOnce, h]

/-- Witness for C5: a pool whose only record has gender "male", filtered by
the absent gender value "female". -/
theorem c5_witness :
    sampleOnce { pool := [[((("GENDER").data), ("male").data)]] } [("hi").data]
        0 0 [] (some [("female").data]) none false =
      (Except.error GenErr.emptyPool, { pool := [[((("GENDER").data), ("male").data)]] }) :=
  c5_empty_filtered_pool_fails _ _ _ _ _ _ _ _ _ (by decide)

/-! ## Claim C1, counterexample: an empty value gives an empty span -/

/-- C1 as stated is false: rendering "hi {X}" with X bound to the empty
string succeeds and records a span with start_position = end_position = 3,
so start < end fails for a placeholder that resolves to the empty string. -/
theorem c1_counterexample :
    ¬ (∀ (ft : List Char) (spans : List Span),
        render (("hi {X}").data) [((("X").data), [])] false = Except.ok (ft, spans) →
        ∀ sp ∈ spans, 0 ≤ sp.start_position ∧ sp.start_position < sp.end_position ∧
          sp.end_position ≤ ft.length) := by
  intro h
  have h2 := h (("hi ").data) [⟨("X").data, [], 3, 3⟩] (by decide)
  have h3 := h2 ⟨("X").data, [], 3, 3⟩ (by simp)
  have h4 : (3 : Nat) < 3 := h3.2.1
  omega

/-! ## Claim C2, counterexample: duplicate renaming runs in reverse -/

/-- C2 as stated is false: on the template "{A} and {A}" the source renames
the FIRST occurrence to A2 and leaves the last occurrence bare, producing
"{A2} and {A}" rather than the claimed "{A} and {A2}". -/
theorem c2_counterexample :
    (get_template_entities (("{A} and {A}").data)).1 = ("{A2} and {A}").data ∧
    (get_template_entities (("{A} and {A}").data)).2.1 = [("A").data, ("A2").data] ∧
    ("{A2} and {A}").data ≠ ("{A} and {A2}").data := by
  refine ⟨by decide, by decide, by decide⟩

/-! ## Claim C10: parser grammar vs renderer scan -/

/-- C10: the placeholder parser does not recognise "{foo}" (no identifier
is returned), while the renderer treats any brace pair as a placeholder and
looks it up in the value map without a default, so rendering any template
whose first brace-delimited token is absent from the value map raises
KeyError instead of substituting an empty string or leaving the token. -/
theorem c10_grammar_mismatch :
    (get_template_entities (("{foo}").data)).2.1 = [] ∧
    ∀ (pre w rest : List Char) (values : List (List Char × List Char)) (tl : Bool),
      (∀ c ∈ pre, c ≠ lbrace) → (∀ c ∈ w, c ≠ lbrace ∧ c ≠ rbrace) →
      lookupV values w = none →
      render (pre ++ lbrace :: (w ++ rbrace :: rest)) values tl =
        Except.error (RenderErr.keyError w) := by
  constructor
  · decide
  · intro pre w rest values tl hpre hw hlk
    unfold render
    rw [show braceCount (pre ++ lbrace :: (w ++ rbrace :: rest)) + 1 =
      Nat.succ (braceCount (pre ++ lbrace :: (w ++ rbrace :: rest))) from rfl]
    simp only [renderLoop]
    have hlen : 0 < (pre ++ lbrace :: (w ++ rbrace :: rest)).length := by
      simp
    rw [if_pos hlen]
    rw [firstIdxOf_append lbrace pre (w ++ rbrace :: rest) hpre]
    simp only []
    rw [List.drop_left]
    have h2 : firstIdxOf rbrace (lbrace :: (w ++ rbrace :: rest)) =
        some (w.length + 1) := by
      have h3 : ∀ c ∈ lbrace :: w, c ≠ rbrace := by
        intro c hc
        rcases List.mem_cons.mp hc with h | h
        · subst h; decide
        · exact (hw c h).2
      have h4 := firstIdxOf_append rbrace (lbrace :: w) rest h3
      simpa using h4
    rw [h2]
    simp only []
    have h5 : slice (pre ++ lbrace :: (w ++ rbrace :: rest)) (pre.length + 1)
        (pre.length + (w.length + 1)) = w := by
      have h6 : pre ++ lbrace :: (w ++ rbrace :: rest) =
          (pre ++ [lbrace]) ++ (w ++ rbrace :: rest) := by simp
      rw [h6]
      have h7 : pre.length + 1 = (pre ++ [lbrace]).length := by simp
      have h8 : pre.length + (w.length + 1) = (pre ++ [lbrace]).length + w.length := by
        simp
        omega
      rw [h7, h8]
      exact slice_mid (pre ++ [lbrace]) w (rbrace :: rest)
    rw [h5, hlk]

/-- Witness for C10: the parser returns no identifier for "{foo}" and the
renderer raises KeyError on it with an empty value map. -/
theorem c10_witness :
    render (("{foo}").data) [] false = Except.error (RenderErr.keyError (("foo").data)) := by
  have h := c10_grammar_mismatch.2 [] (("foo").data) [] [] false
    (by intro c hc; simp at hc) (by decide) (by decide)
  simpa using h

/-! ## Claim C7: template preparation at construction -/

theorem replaceAll_single (a b : Char) (s : List Char) :
    replaceAll [a] [b] s = s.map (fun c => if c = a then b else c) := by
  induction s with
  | nil => rfl
  | cons c cs ih =>
    rw [replaceAll_cons]
    by_cases hca : c = a
    · have hl : hasLead [a] (c :: cs) = true := by
        simp [hasLead, hca]
      rw [if_pos ⟨by simp, hl⟩]
      simp only [List.length_cons, List.length_nil, Nat.sub_self, List.drop_zero]
      rw [ih]
      simp [hca]
    · have hl : hasLead [a] (c :: cs) = false := hasLead_cons_ne a c [] cs hca
      rw [if_neg (by simp [hl])]
      rw [ih]
      simp [hca]

/-- C7: when templates are supplied, the flag selects between storing them
unchanged and converting each template once (strip, then bracket-to-brace
substitution); the converted form is exactly the character-wise
bracket-to-brace image of the stripped template and contains no square
bracket. -/
theorem c7_template_preparation :
    ∀ (ts : List (List Char)), ts ≠ [] →
      initTemplates (some ts) true = some ts ∧
      initTemplates (some ts) false = some (ts.map prepTemplate) ∧
      ∀ t ∈ ts, prepTemplate t = (pyStrip t).map brkSub ∧
        (∀ c ∈ prepTemplate t, c ≠ lbrack ∧ c ≠ rbrack) := by
  intro ts hne
  have hmap : ∀ (t : List Char), prepTemplate t = (pyStrip t).map brkSub := by
    intro t
    unfold prepTemplate
    rw [replaceAll_single, replaceAll_single, List.map_map]
    apply List.map_congr_left
    intro c _
    simp only [Function.comp_apply, brkSub]
    by_cases h1 : c = lbrack
    · subst h1; decide
    · by_cases h2 : c = rbrack
      · subst h2; decide
      · simp [h1, h2]
  refine ⟨?_, ?_, ?_⟩
  · simp [initTemplates, hne]
  · simp [initTemplates, hne, prepTemplates]
  · intro t ht
    refine ⟨hmap t, ?_⟩
    intro c hc
    rw [hmap t] at hc
    obtain ⟨d, _, hd⟩ := List.mem_map.mp hc
    subst hd
    unfold brkSub
    by_cases h1 : d = lbrack
    · subst h1; simp; decide
    · by_cases h2 : d = rbrack
      · subst h2; simp [h1]; decide
      · rw [if_neg h1, if_neg h2]
        exact ⟨h1, h2⟩

/-- Witness for C7 at a concrete raw template list. -/
theorem c7_witness :
    initTemplates (some [("  My name is [PERSON]  ").data]) true =
      some [("  My name is [PERSON]  ").data] ∧
    initTemplates (some [("  My name is [PERSON]  ").data]) false =
      some [("My name is {PERSON}").data] ∧
    prepTemplate (("  My name is [PERSON]  ").data) =
      (pyStrip (("  My name is [PERSON]  ").data)).map brkSub := by
  have h := c7_template_preparation [("  My name is [PERSON]  ").data] (by simp)
  refine ⟨h.1, ?_, (h.2.2 _ (by simp)).1⟩
  have h2 := h.2.1
  rw [h2]
  have h3 : prepTemplate (("  My name is [PERSON]  ").data) =
      ("My name is {PERSON}").data := by decide
  rw [List.map_singleton, h3]

/-! ## Claim C9: the shared pool is read-only; filtering is a pure predicate -/

theorem setAttr_lookup_ne (r : List (List Char × List Char)) (k0 v k : List Char)
    (h : k ≠ k0) : lookupV (setAttr r k0 v) k = lookupV r k := by
  induction r with
  | nil =>
    simp only [setAttr, lookupV]
    rw [if_neg (fun he => h he.symm)]
  | cons p t ih =>
    match p with
    | (a, b) =>
      by_cases ha : a = k0
      · subst ha
        simp only [setAttr, if_pos rfl, lookupV]
        rw [if_neg (fun he => h he.symm), if_neg (fun he => h he.symm)]
      · simp only [setAttr, if_neg ha, lookupV]
        by_cases hak : a = k
        · rw [if_pos hak, if_pos hak]
        · rw [if_neg hak, if_neg hak, ih]

theorem addDupLoop_pres (pool : List Record) (e : List Char) :
    ∀ (c : Nat) (idxs : List Nat) (r r2 : Record) (idxs2 : List Nat),
      addDupLoop pool e c idxs r = Except.ok (r2, idxs2) →
      ∀ k, (∀ j, 2 ≤ j → j ≤ c → k ≠ e ++ natLC j) →
      lookupV r2 k = lookupV r k := by
  intro c
  induction c using Nat.strong_induction_on with
  | _ c ih =>
    intro idxs r r2 idxs2 h k hk
    match c with
    | 0 =>
      simp only [addDupLoop] at h
      injection h with h
      injection h with h1 _
      rw [← h1]
    | 1 =>
      simp only [addDupLoop] at h
      injection h with h
      injection h with h1 _
      rw [← h1]
    | Nat.succ (Nat.succ c0) =>
      simp only [addDupLoop] at h
      match hge : getAdditionalEntity pool (idxs.headD 0) e with
      | Except.error err => rw [hge] at h; simp at h
      | Except.ok v =>
        rw [hge] at h
        simp only [] at h
        have h1 := ih (c0 + 1) (by omega) idxs.tail _ r2 idxs2 h k
          (fun j hj1 hj2 => hk j hj1 (by omega))
        rw [h1]
        exact setAttr_lookup_ne r (e ++ natLC (c0 + 2)) v k
          (hk (c0 + 2) (by omega) (by omega))

theorem mem_dupKeys (e k : List Char) (c : Nat) :
    k ∈ dupKeys e c ↔ ∃ j, 2 ≤ j ∧ j ≤ c ∧ k = e ++ natLC j := by
  unfold dupKeys
  rw [List.mem_filterMap]
  constructor
  · rintro ⟨a, ha, hf⟩
    rw [List.mem_range] at ha
    by_cases h2 : 2 ≤ a + 1
    · rw [if_pos h2] at hf
      injection hf with hf
      exact ⟨a + 1, h2, by omega, hf.symm⟩
    · rw [if_neg h2] at hf
      simp at hf
  · rintro ⟨j, hj1, hj2, hj3⟩
    refine ⟨j - 1, List.mem_range.mpr (by omega), ?_⟩
    have hj : j - 1 + 1 = j := by omega
    rw [hj, if_pos (by omega), hj3]

theorem addDup_pres (pool : List Record) :
    ∀ (counts : List (List Char × Nat)) (idxs : List Nat) (r r2 : Record)
      (idxs2 : List Nat),
      addDuplicatedEntities pool counts idxs r = Except.ok (r2, idxs2) →
      ∀ k, ¬ k ∈ dupKeysAll counts → lookupV r2 k = lookupV r k := by
  intro counts
  induction counts with
  | nil =>
    intro idxs r r2 idxs2 h k _
    simp only [addDuplicatedEntities] at h
    injection h with h
    injection h with h1 _
    rw [← h1]
  | cons p rest ih =>
    intro idxs r r2 idxs2 h k hk
    match p with
    | (e, c) =>
      simp only [addDuplicatedEntities] at h
      match hdl : addDupLoop pool e c idxs r with
      | Except.error err => rw [hdl] at h; simp at h
      | Except.ok rc =>
        rw [hdl] at h
        simp only [] at h
        have hkdef : dupKeysAll ((e, c) :: rest) = dupKeys e c ++ dupKeysAll rest := by
          unfold dupKeysAll
          simp
        rw [hkdef] at hk
        simp only [List.mem_append] at hk
        push_neg at hk
        obtain ⟨hk1, hk2⟩ := hk
        rw [ih rc.2 rc.1 r2 idxs2 h k hk2]
        refine addDupLoop_pres pool e c idxs r rc.1 rc.2 (by rw [hdl]) k ?_
        intro j hj1 hj2 he
        exact hk1 ((mem_dupKeys e k c).mpr ⟨j, hj1, hj2, he⟩)

/-- C9: filtering is a pure predicate over the pool (it equals List.filter
of the row predicate and has no other effect); one whole sampling attempt
returns the generator state unchanged; and duplicate-entity augmentation
only adds the suffixed keys to the working record, leaving every other
attribute lookup unchanged (and never touching the pool, which it only
reads). -/
theorem c9_pool_read_only :
    (∀ (pool : List Record) (genders namesets : Option (List (List Char))),
       filterFakePii pool genders namesets = pool.filter (recordPasses genders namesets)) ∧
    (∀ (st : GenState) (templates : List (List Char)) (tIdx rIdx : Nat)
       (idxs : List Nat) (genders namesets : Option (List (List Char))) (tl : Bool),
       (sampleOnce st templates tIdx rIdx idxs genders namesets tl).2 = st) ∧
    (∀ (pool : List Record) (counts : List (List Char × Nat)) (idxs : List Nat)
       (r r2 : Record) (idxs2 : List Nat),
       addDuplicatedEntities pool counts idxs r = Except.ok (r2, idxs2) →
       ∀ k, ¬ k ∈ dupKeysAll counts → lookupV r2 k = lookupV r k) := by
  refine ⟨?_, ?_, ?_⟩
  · intro pool genders namesets
    unfold filterFakePii recordPasses
    match genders, namesets with
    | none, none => simp
    | none, some ns =>
      by_cases h : ns = []
      · simp [h]
      · simp only [if_neg h]
        apply List.filter_congr
        intro x _
        simp
    | some gs, none =>
      by_cases h : gs = []
      · simp [h]
      · simp only [if_neg h]
        apply List.filter_congr
        intro x _
        simp
    | some gs, some ns =>
      by_cases h1 : gs = []
      · by_cases h2 : ns = []
        · simp [h1, h2]
        · simp only [if_pos h1, if_neg h2]
          apply List.filter_congr
          intro x _
          simp [h1]
      · by_cases h2 : ns = []
        · simp only [if_pos h2, if_neg h1]
          apply List.filter_congr
          intro x _
          simp [h2]
        · simp only [if_neg h1, if_neg h2]
          rw [List.filter_filter]
          apply List.filter_congr
          intro x _
          rw [Bool.and_comm]
  · intro st templates tIdx rIdx idxs genders namesets tl
    match templates with
    | [] => rfl
    | t0 :: trest =>
      simp only [sampleOnce]
      repeat' split
      all_goals rfl
  · exact addDup_pres

/-- Witness for C9 at concrete inputs: a two-row pool filtered by gender,
one full sampling attempt, and a duplicate augmentation with counter
PERSON -> 2 leaving the key X untouched. -/
theorem c9_witness :
    filterFakePii
        [[((("GENDER").data), ("male").data)], [((("GENDER").data), ("f").data)]]
        (some [("f").data]) none =
      List.filter (recordPasses (some [("f").data]) none)
        [[((("GENDER").data), ("male").data)], [((("GENDER").data), ("f").data)]] ∧
    (sampleOnce { pool := [[((("GENDER").data), ("male").data)]] } [("hi").data]
        0 0 [] none none false).2 = { pool := [[((("GENDER").data), ("male").data)]] } ∧
    lookupV [((("X").data), ("v").data), ((("PERSON").data) ++ natLC 2, ("p").data)]
        (("X").data) =
      lookupV [((("X").data), ("v").data)] (("X").data) := by
  refine ⟨c9_pool_read_only.1 _ _ _, c9_pool_read_only.2.1 _ _ _ _ _ _ _ _, ?_⟩
  exact c9_pool_read_only.2.2 [[((("PERSON").data), ("p").data)]]
    [((("PERSON").data), 2)] [0] [((("X").data), ("v").data)]
    [((("X").data), ("v").data), ((("PERSON").data) ++ natLC 2, ("p").data)] []
    (by decide) (("X").data) (by decide)

/-! ## Lemmas about assembled templates and token replacement -/

theorem replaceAll_no_head (op : Char) (pt r : List Char) :
    ∀ (a x : List Char), (∀ c ∈ a, c ≠ op) →
      replaceAll (op :: pt) r (a ++ x) = a ++ replaceAll (op :: pt) r x := by
  intro a
  induction a with
  | nil => intro x _; simp
  | cons c a2 ih =>
    intro x h
    have hc : c ≠ op := h c (by simp)
    rw [List.cons_append, replaceAll_cons,
      if_neg (by simp [hasLead_cons_ne op c pt _ hc])]
    rw [ih x (fun d hd => h d (by simp [hd]))]
    rfl

theorem replaceAll_all_ne (op : Char) (pt r : List Char) (a : List Char)
    (h : ∀ c ∈ a, c ≠ op) : replaceAll (op :: pt) r a = a := by
  have h2 := replaceAll_no_head op pt r a [] h
  simpa [replaceAll_nil] using h2

theorem replaceOnce_no_head (op : Char) (pt r : List Char) :
    ∀ (a x : List Char), (∀ c ∈ a, c ≠ op) →
      replaceOnce (op :: pt) r (a ++ x) = a ++ replaceOnce (op :: pt) r x := by
  intro a
  induction a with
  | nil => intro x _; simp
  | cons c a2 ih =>
    intro x h
    have hc : c ≠ op := h c (by simp)
    rw [List.cons_append]
    simp only [replaceOnce]
    rw [if_neg (by simp [hasLead_cons_ne op c pt _ hc])]
    rw [ih x (fun d hd => h d (by simp [hd]))]
    rfl

theorem occursB_no_head (op : Char) (qt : List Char) :
    ∀ (a x : List Char), (∀ c ∈ a, c ≠ op) →
      occursB (op :: qt) (a ++ x) = occursB (op :: qt) x := by
  intro a
  induction a with
  | nil => intro x _; simp
  | cons c a2 ih =>
    intro x h
    have hc : c ≠ op := h c (by simp)
    rw [List.cons_append]
    simp only [occursB]
    rw [hasLead_cons_ne op c qt _ hc, ih x (fun d hd => h d (by simp [hd]))]
    simp

theorem take_token_iff (cl : Char) :
    ∀ (E n rest : List Char), (∀ c ∈ E, c ≠ cl) → (∀ c ∈ n, c ≠ cl) →
      (List.take (E.length + 1) (n ++ cl :: rest) = E ++ [cl] ↔ n = E) := by
  intro E
  induction E with
  | nil =>
    intro n rest _ hn
    match n with
    | [] => simp
    | c :: n2 =>
      have hc : c ≠ cl := hn c (by simp)
      simp [hc]
  | cons e E2 ih =>
    intro n rest hE hn
    match n with
    | [] =>
      have he : e ≠ cl := hE e (by simp)
      simp only [List.nil_append, List.length_cons, List.take_succ_cons,
        List.cons_append, List.cons.injEq]
      constructor
      · rintro ⟨h1, _⟩
        exact absurd h1.symm he
      · intro hx
        exact absurd hx.symm (List.cons_ne_nil e E2)
    | c :: n2 =>
      simp only [List.cons_append, List.length_cons, List.take_succ_cons,
        List.cons_append, List.cons.injEq]
      constructor
      · rintro ⟨h1, h2⟩
        have := (ih n2 rest (fun d hd => hE d (by simp [hd]))
          (fun d hd => hn d (by simp [hd]))).mp h2
        simp [h1, this]
      · rintro ⟨h1, h2⟩
        refine ⟨h1, ?_⟩
        exact (ih n2 rest (fun d hd => hE d (by simp [hd]))
          (fun d hd => hn d (by simp [hd]))).mpr h2

theorem hasLead_token_iff (op cl : Char) (E n rest : List Char)
    (hE : ∀ c ∈ E, c ≠ cl) (hn : ∀ c ∈ n, c ≠ cl) :
    (hasLead (op :: (E ++ [cl])) (op :: (n ++ cl :: rest)) = true) ↔ n = E := by
  rw [hasLead_iff]
  have hl : (op :: (E ++ [cl])).length = (E.length + 1) + 1 := by simp
  rw [hl, List.take_succ_cons, List.cons.injEq]
  rw [take_token_iff cl E n rest hE hn]
  simp

theorem drop_token (cl : Char) (E rest : List Char) :
    List.drop (E.length + 1) (E ++ cl :: rest) = rest := by
  have h : E ++ cl :: rest = (E ++ [cl]) ++ rest := by simp
  rw [h]
  have h2 : E.length + 1 = (E ++ [cl]).length := by simp
  rw [h2, List.drop_left]

theorem replaceAll_assemble (op cl : Char) (hocl : op ≠ cl) (E F : List Char)
    (hE : ∀ c ∈ E, c ≠ cl) :
    ∀ (ps : List (List Char × List Char)) (l0 : List Char),
      (∀ c ∈ l0, c ≠ op) →
      (∀ p ∈ ps, (∀ c ∈ p.1, c ≠ op ∧ c ≠ cl) ∧ (∀ c ∈ p.2, c ≠ op)) →
      replaceAll (op :: (E ++ [cl])) (op :: (F ++ [cl])) (assemble op cl l0 ps) =
        assemble op cl l0 (mapNamesP (fun n => if n = E then F else n) ps) := by
  intro ps
  induction ps with
  | nil =>
    intro l0 hl0 _
    exact replaceAll_all_ne op _ _ l0 hl0
  | cons p t ih =>
    intro l0 hl0 hps
    match p with
    | (n, l) =>
      have hn1 : ∀ c ∈ n, c ≠ op := fun c hc => ((hps (n, l) (by simp)).1 c hc).1
      have hn2 : ∀ c ∈ n, c ≠ cl := fun c hc => ((hps (n, l) (by simp)).1 c hc).2
      have hl1 : ∀ c ∈ l, c ≠ op := (hps (n, l) (by simp)).2
      show replaceAll (op :: (E ++ [cl])) (op :: (F ++ [cl]))
          (l0 ++ op :: (n ++ cl :: assemble op cl l t)) = _
      rw [replaceAll_no_head op _ _ l0 _ hl0]
      rw [replaceAll_cons]
      by_cases hne : n = E
      · rw [if_pos ⟨by simp, (hasLead_token_iff op cl E n _ hE hn2).mpr hne⟩]
        rw [hne]
        have hlen : (op :: (E ++ [cl])).length - 1 = E.length + 1 := by simp
        rw [hlen, drop_token cl E (assemble op cl l t)]
        rw [ih l hl1 (fun q hq => hps q (by simp [hq]))]
        simp [assemble, mapNamesP]
      · rw [if_neg (by
          intro hcon
          exact hne ((hasLead_token_iff op cl E n _ hE hn2).mp hcon.2))]
        rw [replaceAll_no_head op _ _ n _ hn1]
        rw [replaceAll_cons,
          if_neg (by simp [hasLead_cons_ne op cl _ _ (Ne.symm hocl)])]
        rw [ih l hl1 (fun q hq => hps q (by simp [hq]))]
        simp [assemble, mapNamesP, if_neg hne]

theorem replaceOnce_assemble (op cl : Char) (hocl : op ≠ cl) (E F : List Char)
    (hE : ∀ c ∈ E, c ≠ cl) :
    ∀ (ps : List (List Char × List Char)) (l0 : List Char),
      (∀ c ∈ l0, c ≠ op) →
      (∀ p ∈ ps, (∀ c ∈ p.1, c ≠ op ∧ c ≠ cl) ∧ (∀ c ∈ p.2, c ≠ op)) →
      replaceOnce (op :: (E ++ [cl])) (op :: (F ++ [cl])) (assemble op cl l0 ps) =
        assemble op cl l0 (lrOnceP ps E F) := by
  intro ps
  induction ps with
  | nil =>
    intro l0 hl0 _
    have h2 := replaceOnce_no_head op (E ++ [cl]) (op :: (F ++ [cl])) l0 [] hl0
    simpa [replaceOnce] using h2
  | cons p t ih =>
    intro l0 hl0 hps
    match p with
    | (n, l) =>
      have hn1 : ∀ c ∈ n, c ≠ op := fun c hc => ((hps (n, l) (by simp)).1 c hc).1
      have hn2 : ∀ c ∈ n, c ≠ cl := fun c hc => ((hps (n, l) (by simp)).1 c hc).2
      have hl1 : ∀ c ∈ l, c ≠ op := (hps (n, l) (by simp)).2
      show replaceOnce (op :: (E ++ [cl])) (op :: (F ++ [cl]))
          (l0 ++ op :: (n ++ cl :: assemble op cl l t)) = _
      rw [replaceOnce_no_head op _ _ l0 _ hl0]
      simp only [replaceOnce]
      by_cases hne : n = E
      · rw [if_pos ⟨by simp, (hasLead_token_iff op cl E n _ hE hn2).mpr hne⟩]
        rw [hne]
        have hlen : (op :: (E ++ [cl])).length - 1 = E.length + 1 := by simp
        rw [hlen, drop_token cl E (assemble op cl l t)]
        simp [assemble, lrOnceP]
      · rw [if_neg (by
          intro hcon
          exact hne ((hasLead_token_iff op cl E n _ hE hn2).mp hcon.2))]
        rw [replaceOnce_no_head op _ _ n _ hn1]
        simp only [replaceOnce]
        rw [if_neg (by simp [hasLead_cons_ne op cl _ _ (Ne.symm hocl)])]
        rw [ih l hl1 (fun q hq => hps q (by simp [hq]))]
        simp [assemble, lrOnceP, if_neg hne]

theorem occursB_assemble (op cl : Char) (hocl : op ≠ cl) (M : List Char)
    (hM : ∀ c ∈ M, c ≠ cl) :
    ∀ (ps : List (List Char × List Char)) (l0 : List Char),
      (∀ c ∈ l0, c ≠ op) →
      (∀ p ∈ ps, (∀ c ∈ p.1, c ≠ op ∧ c ≠ cl) ∧ (∀ c ∈ p.2, c ≠ op)) →
      (¬ M ∈ namesOf ps) →
      occursB (op :: (M ++ [cl])) (assemble op cl l0 ps) = false := by
  intro ps
  induction ps with
  | nil =>
    intro l0 hl0 _ _
    have h2 := occursB_no_head op (M ++ [cl]) l0 [] hl0
    simpa [occursB] using h2
  | cons p t ih =>
    intro l0 hl0 hps hmem
    match p with
    | (n, l) =>
      have hn1 : ∀ c ∈ n, c ≠ op := fun c hc => ((hps (n, l) (by simp)).1 c hc).1
      have hn2 : ∀ c ∈ n, c ≠ cl := fun c hc => ((hps (n, l) (by simp)).1 c hc).2
      have hl1 : ∀ c ∈ l, c ≠ op := (hps (n, l) (by simp)).2
      have hnM : n ≠ M := by
        intro he
        exact hmem (by simp [namesOf, he])
      show occursB (op :: (M ++ [cl])) (l0 ++ op :: (n ++ cl :: assemble op cl l t)) = false
      rw [occursB_no_head op _ l0 _ hl0]
      simp only [occursB]
      have hfl : hasLead (op :: (M ++ [cl])) (op :: (n ++ cl :: assemble op cl l t)) = false := by
        rw [Bool.eq_false_iff]
        intro hcon
        exact hnM ((hasLead_token_iff op cl M n _ hM hn2).mp hcon)
      rw [hfl]
      rw [occursB_no_head op _ n _ hn1]
      simp only [occursB]
      rw [hasLead_cons_ne op cl _ _ (Ne.symm hocl)]
      rw [ih l hl1 (fun q hq => hps q (by simp [hq]))
        (fun hc => hmem (by simp [namesOf] at hc ⊢; exact Or.inr hc))]
      simp

theorem map_assemble (f : Char → Char) (op cl : Char) :
    ∀ (ps : List (List Char × List Char)) (l0 : List Char),
      (assemble op cl l0 ps).map f =
        assemble (f op) (f cl) (l0.map f) (ps.map (fun p => (p.1.map f, p.2.map f))) := by
  intro ps
  induction ps with
  | nil => intro l0; simp [assemble]
  | cons p t ih =>
    intro l0
    match p with
    | (n, l) =>
      simp only [assemble, List.map_append, List.map_cons, List.map_cons]
      rw [ih l]

theorem map_id_chars (f : Char → Char) (l : List Char) (h : ∀ c ∈ l, f c = c) :
    l.map f = l := by
  rw [List.map_congr_left h]
  simp

theorem classChar_not_delims (c : Char) (h : isClassChar c = true) :
    c ≠ lbrace ∧ c ≠ rbrace ∧ c ≠ lbrack ∧ c ≠ rbrack := by
  refine ⟨?_, ?_, ?_, ?_⟩ <;> (intro he; rw [he] at h; exact absurd h (by decide))

theorem mapNamesP_id (ps : List (List Char × List Char)) :
    mapNamesP (fun n => n) ps = ps := by
  simp [mapNamesP]

theorem mapNamesP_comp (f g : List Char → List Char)
    (ps : List (List Char × List Char)) :
    mapNamesP f (mapNamesP g ps) = mapNamesP (fun n => f (g n)) ps := by
  simp only [mapNamesP, List.map_map]
  rfl

theorem namesOf_mapNamesP (f : List Char → List Char)
    (ps : List (List Char × List Char)) :
    namesOf (mapNamesP f ps) = (namesOf ps).map f := by
  simp only [namesOf, mapNamesP, List.map_map]
  rfl

theorem mk_masked_assemble (text : List Char) (spans : List Span)
    (l0 : List Char) (ps : List (List Char × List Char))
    (hl0 : litOK l0) (hps : ∀ p ∈ ps, nameOK p.1 ∧ litOK p.2) :
    (mkInputSample text spans (assemble lbrace rbrace l0 ps)).masked =
      assemble lbrack rbrack l0 ps := by
  show (assemble lbrace rbrace l0 ps).map braceToBrack = _
  rw [map_assemble]
  have hop : braceToBrack lbrace = lbrack := by decide
  have hcl : braceToBrack rbrace = rbrack := by decide
  rw [hop, hcl]
  rw [map_id_chars braceToBrack l0 (fun c hc => by
    obtain ⟨h1, h2, _, _⟩ := hl0 c hc
    simp [braceToBrack, h1, h2])]
  have hps2 : ps.map (fun p => (p.1.map braceToBrack, p.2.map braceToBrack)) = ps := by
    have hid : ps.map (fun p => (p.1.map braceToBrack, p.2.map braceToBrack)) =
        ps.map (fun p => p) := by
      apply List.map_congr_left
      intro p hp
      have hn := (hps p hp).1.2
      have hl := (hps p hp).2
      have e1 : p.1.map braceToBrack = p.1 := map_id_chars _ _ (fun c hc => by
        obtain ⟨h1, h2, _, _⟩ := classChar_not_delims c (hn c hc)
        simp [braceToBrack, h1, h2])
      have e2 : p.2.map braceToBrack = p.2 := map_id_chars _ _ (fun c hc => by
        obtain ⟨h1, h2, _, _⟩ := hl c hc
        simp [braceToBrack, h1, h2])
      rw [e1, e2]
    rw [hid]
    simp
  rw [hps2]

theorem foldl_replaceAll_tokR (T : List Char)
    (hT : ∀ c ∈ T, c ≠ lbrack ∧ c ≠ rbrack) :
    ∀ (pats : List (List Char)), (∀ e ∈ pats, ∀ c ∈ e, c ≠ rbrack) →
    ∀ (ps : List (List Char × List Char)) (l0 : List Char),
      (∀ c ∈ l0, c ≠ lbrack) →
      (∀ p ∈ ps, (∀ c ∈ p.1, c ≠ lbrack ∧ c ≠ rbrack) ∧ (∀ c ∈ p.2, c ≠ lbrack)) →
      pats.foldl (fun acc e => replaceAll (tokR e) (tokR T) acc)
          (assemble lbrack rbrack l0 ps) =
        assemble lbrack rbrack l0
          (mapNamesP (fun n => pats.foldl (fun m e => if m = e then T else m) n) ps) := by
  intro pats
  induction pats with
  | nil =>
    intro _ ps l0 _ _
    simp [mapNamesP_id]
  | cons e pats2 ih =>
    intro hpats ps l0 hl0 hps
    simp only [List.foldl_cons]
    have hstep : replaceAll (tokR e) (tokR T) (assemble lbrack rbrack l0 ps) =
        assemble lbrack rbrack l0 (mapNamesP (fun n => if n = e then T else n) ps) := by
      show replaceAll (lbrack :: (e ++ [rbrack])) (lbrack :: (T ++ [rbrack])) _ = _
      exact replaceAll_assemble lbrack rbrack (by decide) e T
        (hpats e (by simp)) ps l0 hl0 hps
    rw [hstep]
    rw [ih (fun d hd => hpats d (by simp [hd]))
      (mapNamesP (fun n => if n = e then T else n) ps) l0 hl0 (by
        intro p hp
        simp only [mapNamesP, List.mem_map] at hp
        obtain ⟨q, hq, hqe⟩ := hp
        subst hqe
        refine ⟨?_, (hps q hq).2⟩
        intro c hc
        simp only [] at hc
        by_cases hqe2 : q.1 = e
        · rw [if_pos hqe2] at hc
          exact hT c hc
        · rw [if_neg hqe2] at hc
          exact (hps q hq).1 c hc)]
    rw [mapNamesP_comp]

theorem consolidateMasked_assemble (l0 : List Char)
    (ps : List (List Char × List Char))
    (hl0 : ∀ c ∈ l0, c ≠ lbrack)
    (hps : ∀ p ∈ ps, (∀ c ∈ p.1, c ≠ lbrack ∧ c ≠ rbrack) ∧ (∀ c ∈ p.2, c ≠ lbrack)) :
    consolidateMasked (assemble lbrack rbrack l0 ps) =
      assemble lbrack rbrack l0 (mapNamesP gSub ps) := by
  unfold consolidateMasked
  rw [foldl_replaceAll_tokR locationT (by decide) locationsL (by decide) ps l0 hl0 hps]
  rw [foldl_replaceAll_tokR personT (by decide) namesL (by decide)
    (mapNamesP (fun n => locationsL.foldl (fun m e => if m = e then locationT else m) n) ps)
    l0 hl0 (by
      intro p hp
      simp only [mapNamesP, List.mem_map] at hp
      obtain ⟨q, hq, hqe⟩ := hp
      subst hqe
      refine ⟨?_, (hps q hq).2⟩
      intro c hc
      simp only [] at hc
      have hfold : ∀ (pats : List (List Char)) (n0 : List Char),
          (∀ d ∈ n0, d ≠ lbrack ∧ d ≠ rbrack) →
          (∀ d ∈ pats.foldl (fun m e => if m = e then locationT else m) n0,
            d ≠ lbrack ∧ d ≠ rbrack) := by
        intro pats
        induction pats with
        | nil => intro n0 h0; exact h0
        | cons e2 p2 ih2 =>
          intro n0 h0
          rw [List.foldl_cons]
          apply ih2
          by_cases hne : n0 = e2
          · rw [if_pos hne]; intro d hd; exact ⟨(by decide : ∀ d ∈ locationT, d ≠ lbrack ∧ d ≠ rbrack) d hd |>.1,
              (by decide : ∀ d ∈ locationT, d ≠ lbrack ∧ d ≠ rbrack) d hd |>.2⟩
          · rw [if_neg hne]; exact h0
      exact hfold locationsL q.1 ((hps q hq).1) c hc)]
  rw [mapNamesP_comp]
  rfl

theorem inputSample_ext (a b : InputSample) (h1 : a.full_text = b.full_text)
    (h2 : a.spans = b.spans) (h3 : a.masked = b.masked) : a = b := by
  cases a
  cases b
  simp_all

theorem gSub_eq_spec (n : List Char) : gSub n = specGroupMap n := by
  unfold specGroupMap
  by_cases h1 : n ∈ namesL
  · rw [if_pos h1]
    simp only [namesL, List.mem_cons, List.not_mem_nil, or_false] at h1
    rcases h1 with h | h | h <;> (rw [h]; decide)
  · rw [if_neg h1]
    by_cases h2 : n ∈ locationsL
    · rw [if_pos h2]
      simp only [locationsL, List.mem_cons, List.not_mem_nil, or_false] at h2
      rcases h2 with h | h | h | h | h | h <;> (rw [h]; decide)
    · rw [if_neg h2]
      simp only [namesL, List.mem_cons, List.not_mem_nil, or_false, not_or] at h1
      simp only [locationsL, List.mem_cons, List.not_mem_nil, or_false, not_or] at h2
      obtain ⟨a1, a2, a3⟩ := h1
      obtain ⟨b1, b2, b3, b4, b5, b6⟩ := h2
      simp [gSub, locationsL, namesL, List.foldl_cons, List.foldl_nil,
        if_neg a1, if_neg a2, if_neg a3, if_neg b1, if_neg b2, if_neg b3,
        if_neg b4, if_neg b5, if_neg b6]

theorem specGroupMap_idem (n : List Char) :
    specGroupMap (specGroupMap n) = specGroupMap n := by
  unfold specGroupMap
  by_cases h1 : n ∈ namesL
  · rw [if_pos h1]
    decide
  · rw [if_neg h1]
    by_cases h2 : n ∈ locationsL
    · rw [if_pos h2]
      decide
    · rw [if_neg h2, if_neg h1, if_neg h2]

theorem consolidateSpan_eq_spec (sp : Span) :
    consolidateSpan sp = specConsolidateSpan sp := by
  unfold consolidateSpan specConsolidateSpan specGroupMap
  by_cases h1 : sp.entity_type ∈ namesL
  · rw [if_pos h1, if_pos h1]
  · rw [if_neg h1, if_neg h1]
    by_cases h2 : sp.entity_type ∈ locationsL
    · rw [if_pos h2, if_pos h2]
    · rw [if_neg h2, if_neg h2]

theorem specGroupMap_chars (n : List Char)
    (h : ∀ c ∈ n, c ≠ lbrack ∧ c ≠ rbrack) :
    ∀ c ∈ specGroupMap n, c ≠ lbrack ∧ c ≠ rbrack := by
  unfold specGroupMap
  by_cases h1 : n ∈ namesL
  · rw [if_pos h1]; decide
  · rw [if_neg h1]
    by_cases h2 : n ∈ locationsL
    · rw [if_pos h2]; decide
    · rw [if_neg h2]; exact h

theorem specGroupMap_avoid (M : List Char) (hM : M ∈ strictMembers)
    (n : List Char) : specGroupMap n ≠ M := by
  intro he
  unfold specGroupMap at he
  by_cases h1 : n ∈ namesL
  · rw [if_pos h1] at he
    rw [← he] at hM
    exact absurd hM (by decide)
  · rw [if_neg h1] at he
    by_cases h2 : n ∈ locationsL
    · rw [if_pos h2] at he
      rw [← he] at hM
      exact absurd hM (by decide)
    · rw [if_neg h2] at he
      rw [he] at h1 h2
      simp only [strictMembers, List.mem_cons, List.not_mem_nil, or_false] at hM
      rcases hM with h | h | h | h | h | h | h <;> rw [h] at h1 h2 <;>
        first
        | exact h1 (by decide)
        | exact h2 (by decide)

theorem wf_bracket (ps : List (List Char × List Char))
    (hps : ∀ p ∈ ps, nameOK p.1 ∧ litOK p.2) :
    ∀ p ∈ ps, (∀ c ∈ p.1, c ≠ lbrack ∧ c ≠ rbrack) ∧ (∀ c ∈ p.2, c ≠ lbrack) := by
  intro p hp
  refine ⟨?_, ?_⟩
  · intro c hc
    obtain ⟨_, _, h3, h4⟩ := classChar_not_delims c ((hps p hp).1.2 c hc)
    exact ⟨h3, h4⟩
  · intro c hc
    exact ((hps p hp).2 c hc).2.2.1

theorem consolidateNames_masked (s : InputSample) :
    (consolidateNames s).masked = consolidateMasked s.masked := by
  simp only [consolidateNames]

theorem consolidateNames_spans (s : InputSample) :
    (consolidateNames s).spans = s.spans.map consolidateSpan := by
  unfold consolidateNames
  rfl

theorem consolidateNames_text (s : InputSample) :
    (consolidateNames s).full_text = s.full_text := by
  unfold consolidateNames
  rfl

theorem mkInputSample_masked (t : List Char) (sp : List Span) (tem : List Char) :
    (mkInputSample t sp tem).masked = tem.map braceToBrack := by
  unfold mkInputSample
  rfl

theorem mkInputSample_spans (t : List Char) (sp : List Span) (tem : List Char) :
    (mkInputSample t sp tem).spans = sp := by
  unfold mkInputSample
  rfl

/-! ## Claim C3: entity consolidation -/

/-- C3: on a pipeline sample (whose masked string is the bracketized
assembled template, per the spec's Rendered Sample data model), every span
is rewritten by the group table (FIRST_NAME/LAST_NAME/PERSON to PERSON and
the location group to LOCATION), the masked string receives exactly the
same name remapping by bracket-token substitution, and afterwards no
non-canonical group member's bracketed token occurs in the masked string. -/
theorem c3_consolidation (text : List Char) (spans : List Span) (l0 : List Char)
    (ps : List (List Char × List Char))
    (hl0 : litOK l0) (hps : ∀ p ∈ ps, nameOK p.1 ∧ litOK p.2) :
    (consolidateNames (mkInputSample text spans (assemble lbrace rbrace l0 ps))).spans =
        spans.map specConsolidateSpan ∧
    (consolidateNames (mkInputSample text spans (assemble lbrace rbrace l0 ps))).masked =
        assemble lbrack rbrack l0 (mapNamesP specGroupMap ps) ∧
    ∀ M ∈ strictMembers,
      occursB (tokR M)
        ((consolidateNames (mkInputSample text spans (assemble lbrace rbrace l0 ps))).masked) =
        false := by
  have hmasked :
      (consolidateNames (mkInputSample text spans (assemble lbrace rbrace l0 ps))).masked =
        assemble lbrack rbrack l0 (mapNamesP specGroupMap ps) := by
    rw [consolidateNames_masked, mk_masked_assemble text spans l0 ps hl0 hps]
    rw [consolidateMasked_assemble l0 ps
      (fun c hc => (hl0 c hc).2.2.1) (wf_bracket ps hps)]
    have : mapNamesP gSub ps = mapNamesP specGroupMap ps := by
      unfold mapNamesP
      apply List.map_congr_left
      intro p _
      rw [gSub_eq_spec]
    rw [this]
  refine ⟨?_, hmasked, ?_⟩
  · rw [consolidateNames_spans, mkInputSample_spans]
    apply List.map_congr_left
    intro sp _
    exact consolidateSpan_eq_spec sp
  · intro M hM
    rw [hmasked]
    show occursB (lbrack :: (M ++ [rbrack])) _ = false
    apply occursB_assemble lbrack rbrack (by decide) M
    · intro c hc
      simp only [strictMembers, List.mem_cons, List.not_mem_nil, or_false] at hM
      rcases hM with h | h | h | h | h | h | h <;> rw [h] at hc <;>
        revert c hc <;> decide
    · exact fun c hc => (hl0 c hc).2.2.1
    · intro p hp
      simp only [mapNamesP, List.mem_map] at hp
      obtain ⟨q, hq, hqe⟩ := hp
      subst hqe
      refine ⟨?_, ?_⟩
      · intro c hc
        exact specGroupMap_chars q.1 ((wf_bracket ps hps q hq).1) c hc
      · exact fun c hc => ((hps q hq).2 c hc).2.2.1
    · rw [namesOf_mapNamesP]
      intro hmem
      obtain ⟨n0, _, hn0⟩ := List.mem_map.mp hmem
      exact specGroupMap_avoid M hM n0 hn0

/-- Witness for C3 at a concrete sample: template "I met {FIRST_NAME} in {CITY}". -/
theorem c3_witness :
    (consolidateNames (mkInputSample (("I met Bo in Oslo").data)
        [⟨("FIRST_NAME").data, ("Bo").data, 6, 8⟩]
        (assemble lbrace rbrace (("I met ").data)
          [((("FIRST_NAME").data), (" in ").data), ((("CITY").data), [])]))).spans =
      [⟨("FIRST_NAME").data, ("Bo").data, 6, 8⟩].map specConsolidateSpan ∧
    (consolidateNames (mkInputSample (("I met Bo in Oslo").data)
        [⟨("FIRST_NAME").data, ("Bo").data, 6, 8⟩]
        (assemble lbrace rbrace (("I met ").data)
          [((("FIRST_NAME").data), (" in ").data), ((("CITY").data), [])]))).masked =
      assemble lbrack rbrack (("I met ").data)
        (mapNamesP specGroupMap [((("FIRST_NAME").data), (" in ").data), ((("CITY").data), [])]) := by
  have h := c3_consolidation (("I met Bo in Oslo").data)
    [⟨("FIRST_NAME").data, ("Bo").data, 6, 8⟩] (("I met ").data)
    [((("FIRST_NAME").data), (" in ").data), ((("CITY").data), [])]
    (by decide) (by decide)
  exact ⟨h.1, h.2.1⟩

/-! ## Claim C8: consolidation is idempotent -/

/-- C8: on a pipeline sample, running consolidation twice yields exactly
the result of running it once, and PERSON and LOCATION are fixed points of
the group remapping. -/
theorem c8_consolidation_idempotent (text : List Char) (spans : List Span)
    (l0 : List Char) (ps : List (List Char × List Char))
    (hl0 : litOK l0) (hps : ∀ p ∈ ps, nameOK p.1 ∧ litOK p.2) :
    consolidateNames (consolidateNames
        (mkInputSample text spans (assemble lbrace rbrace l0 ps))) =
      consolidateNames (mkInputSample text spans (assemble lbrace rbrace l0 ps)) ∧
    specGroupMap personT = personT ∧ specGroupMap locationT = locationT := by
  refine ⟨?_, by decide, by decide⟩
  have hm1 : (consolidateNames (mkInputSample text spans
      (assemble lbrace rbrace l0 ps))).masked =
      assemble lbrack rbrack l0 (mapNamesP specGroupMap ps) := by
    rw [consolidateNames_masked, mk_masked_assemble text spans l0 ps hl0 hps]
    rw [consolidateMasked_assemble l0 ps
      (fun c hc => (hl0 c hc).2.2.1) (wf_bracket ps hps)]
    have hge : mapNamesP gSub ps = mapNamesP specGroupMap ps := by
      unfold mapNamesP
      apply List.map_congr_left
      intro p _
      rw [gSub_eq_spec]
    rw [hge]
  apply inputSample_ext
  · rw [consolidateNames_text]
  · simp only [consolidateNames_spans, mkInputSample_spans]
    rw [List.map_map]
    apply List.map_congr_left
    intro sp _
    show consolidateSpan (consolidateSpan sp) = consolidateSpan sp
    simp only [consolidateSpan_eq_spec]
    unfold specConsolidateSpan
    simp [specGroupMap_idem]
  · rw [consolidateNames_masked (consolidateNames (mkInputSample text spans
      (assemble lbrace rbrace l0 ps)))]
    rw [hm1]
    rw [consolidateMasked_assemble l0 (mapNamesP specGroupMap ps)
      (fun c hc => (hl0 c hc).2.2.1) (by
        intro p hp
        simp only [mapNamesP, List.mem_map] at hp
        obtain ⟨q, hq, hqe⟩ := hp
        subst hqe
        refine ⟨?_, ?_⟩
        · exact specGroupMap_chars q.1 ((wf_bracket ps hps q hq).1)
        · exact fun c hc => ((hps q hq).2 c hc).2.2.1)]
    rw [mapNamesP_comp]
    have hcomp : mapNamesP (fun n => gSub (specGroupMap n)) ps =
        mapNamesP specGroupMap ps := by
      unfold mapNamesP
      apply List.map_congr_left
      intro p _
      show (gSub (specGroupMap p.1), p.2) = (specGroupMap p.1, p.2)
      rw [gSub_eq_spec, specGroupMap_idem]
    rw [hcomp]

/-- Witness for C8 at a concrete sample. -/
theorem c8_witness :
    consolidateNames (consolidateNames
        (mkInputSample (("Oslo is nice").data) [⟨("CITY").data, ("Oslo").data, 0, 4⟩]
          (assemble lbrace rbrace [] [((("CITY").data), (" is nice").data)]))) =
      consolidateNames
        (mkInputSample (("Oslo is nice").data) [⟨("CITY").data, ("Oslo").data, 0, 4⟩]
          (assemble lbrace rbrace [] [((("CITY").data), (" is nice").data)])) :=
  (c8_consolidation_idempotent (("Oslo is nice").data)
    [⟨("CITY").data, ("Oslo").data, 0, 4⟩] []
    [((("CITY").data), (" is nice").data)] (by decide) (by decide)).1

/-! ## Claim C2: lemmas about the placeholder scan and the counter -/

theorem scanTemplate_skip (a x : List Char) (h : ∀ c ∈ a, c ≠ lbrace) :
    scanTemplate (a ++ x) = scanTemplate x := by
  induction a with
  | nil => simp
  | cons c a2 ih =>
    have hc : c ≠ lbrace := h c (by simp)
    rw [List.cons_append, scanTemplate_cons, if_neg hc]
    exact ih (fun d hd => h d (by simp [hd]))

theorem takeWhile_block (p : Char → Bool) (n : List Char) (y : List Char)
    (hn : ∀ c ∈ n, p c = true) (hy : ∀ (c : Char), y.head? = some c → p c = false) :
    (n ++ y).takeWhile p = n := by
  induction n with
  | nil =>
    match y with
    | [] => simp
    | c :: t =>
      have := hy c (by simp)
      simp [List.takeWhile_cons, this]
  | cons c n2 ih =>
    have hc : p c = true := hn c (by simp)
    simp only [List.cons_append, List.takeWhile_cons, hc]
    rw [ih (fun d hd => hn d (by simp [hd]))]
    simp

theorem scanTemplate_assemble (l0 : List Char)
    (ps : List (List Char × List Char))
    (hl0 : ∀ c ∈ l0, c ≠ lbrace)
    (hps : ∀ p ∈ ps, (p.1 ≠ [] ∧ ∀ c ∈ p.1, isClassChar c = true) ∧
      (∀ c ∈ p.2, c ≠ lbrace)) :
    scanTemplate (assemble lbrace rbrace l0 ps) = namesOf ps := by
  induction ps generalizing l0 with
  | nil =>
    have h2 := scanTemplate_skip l0 [] hl0
    simpa [namesOf, assemble, scanTemplate] using h2
  | cons p t ih =>
    match p with
    | (n, l) =>
      have hn1 : n ≠ [] := (hps (n, l) (by simp)).1.1
      have hn2 : ∀ c ∈ n, isClassChar c = true := (hps (n, l) (by simp)).1.2
      have hl1 : ∀ c ∈ l, c ≠ lbrace := (hps (n, l) (by simp)).2
      show scanTemplate (l0 ++ lbrace :: (n ++ rbrace :: assemble lbrace rbrace l t)) = _
      rw [scanTemplate_skip l0 _ hl0, scanTemplate_cons, if_pos rfl]
      have hrun : (n ++ rbrace :: assemble lbrace rbrace l t).takeWhile isClassChar = n := by
        apply takeWhile_block isClassChar n _ hn2
        intro c hc
        simp only [List.head?_cons, Option.some.injEq] at hc
        rw [← hc]
        decide
      rw [hrun]
      have hdrop : (n ++ rbrace :: assemble lbrace rbrace l t).drop n.length =
          rbrace :: assemble lbrace rbrace l t := List.drop_left n _
      rw [if_pos ⟨hn1, by rw [hdrop]; simp⟩]
      rw [hdrop]
      simp only [List.tail_cons]
      rw [ih l hl1 (fun q hq => hps q (by simp [hq]))]
      simp [namesOf]

theorem bump_countOf (m : List (List Char × Nat)) (k e : List Char) :
    countOf (bump m k) e = countOf m e + (if e = k then 1 else 0) := by
  induction m with
  | nil =>
    by_cases he : e = k
    · simp [bump, countOf, he]
    · simp [bump, countOf, he, Ne.symm he]
  | cons p t ih =>
    match p with
    | (a, c) =>
      by_cases hak : a = k
      · rw [hak]
        simp only [bump, if_pos rfl, countOf]
        by_cases he : k = e
        · rw [if_pos he, if_pos he, if_pos (by rw [he] : e = k)]
        · rw [if_neg he, if_neg he, if_neg (fun hx => he hx.symm)]
          simp
      · simp only [bump, if_neg hak, countOf]
        by_cases hae : a = e
        · rw [if_pos hae, if_pos hae]
          have : ¬ e = k := fun hx => hak (hae.trans hx)
          rw [if_neg this]
          simp
        · rw [if_neg hae, if_neg hae, ih]

theorem buildRepl_spec :
    ∀ (t : List (List Char)) (m : List (List Char × Nat)) (pre : List (List Char)),
      (∀ e, countOf m e = List.count e pre) →
      (buildRepl t m).1 = srlAux pre t ∧
      (∀ e, countOf (buildRepl t m).2 e = List.count e (pre ++ t)) := by
  intro t
  induction t with
  | nil =>
    intro m pre h
    refine ⟨rfl, ?_⟩
    intro e
    simpa using h e
  | cons n t2 ih =>
    intro m pre h
    have hb : ∀ e, countOf (bump m n) e = List.count e (pre ++ [n]) := by
      intro e
      rw [bump_countOf, h e]
      simp only [List.count_append]
      by_cases he : e = n
      · rw [if_pos he, he]
        simp [List.count_cons]
      · rw [if_neg he]
        have : List.count e [n] = 0 := by
          simp [List.count_cons, List.count_nil]
          intro hx
          exact absurd hx.symm he
        rw [this]
    obtain ⟨ih1, ih2⟩ := ih (bump m n) (pre ++ [n]) hb
    constructor
    · show (if countOf (bump m n) n = 1 then n else n ++ natLC (countOf (bump m n) n)) ::
        (buildRepl t2 (bump m n)).1 = _
      rw [ih1]
      have hc : countOf (bump m n) n = List.count n pre + 1 := by
        rw [bump_countOf, h n]
        simp
      rw [hc]
      rfl
    · intro e
      rw [show (buildRepl (n :: t2) m).2 = (buildRepl t2 (bump m n)).2 from rfl]
      rw [ih2 e]
      simp [List.count_append]

theorem countOf_pos_mem (m : List (List Char × Nat)) (e : List Char)
    (h : 0 < countOf m e) : e ∈ m.map Prod.fst := by
  induction m with
  | nil => simp [countOf] at h
  | cons p t ih =>
    match p with
    | (a, c) =>
      by_cases hae : a = e
      · simp [hae]
      · simp only [countOf, if_neg hae] at h
        simp [ih h]

theorem bump_keys (m : List (List Char × Nat)) (k : List Char) :
    (bump m k).map Prod.fst =
      if k ∈ m.map Prod.fst then m.map Prod.fst else m.map Prod.fst ++ [k] := by
  induction m with
  | nil => simp [bump]
  | cons p t ih =>
    match p with
    | (a, c) =>
      by_cases hak : a = k
      · simp [bump, hak]
      · simp only [bump, if_neg hak, List.map_cons, ih]
        by_cases hk : k ∈ t.map Prod.fst
        · rw [if_pos hk, if_pos (by simp [hk])]
        · rw [if_neg hk, if_neg (by
            simp only [List.mem_cons]
            rintro (h | h)
            · exact hak h.symm
            · exact hk h)]
          simp

theorem bump_nodup (m : List (List Char × Nat)) (k : List Char)
    (h : (m.map Prod.fst).Nodup) : ((bump m k).map Prod.fst).Nodup := by
  rw [bump_keys]
  by_cases hk : k ∈ m.map Prod.fst
  · rw [if_pos hk]
    exact h
  · rw [if_neg hk]
    simp [List.nodup_append, h, hk]

theorem buildRepl_nodup :
    ∀ (t : List (List Char)) (m : List (List Char × Nat)),
      (m.map Prod.fst).Nodup → (((buildRepl t m).2).map Prod.fst).Nodup := by
  intro t
  induction t with
  | nil => intro m h; exact h
  | cons n t2 ih =>
    intro m h
    exact ih (bump m n) (bump_nodup m n h)

theorem mem_countOf (m : List (List Char × Nat))
    (hnd : (m.map Prod.fst).Nodup) (e : List Char) (c : Nat)
    (hm : (e, c) ∈ m) : countOf m e = c := by
  induction m with
  | nil => simp at hm
  | cons p t ih =>
    match p with
    | (a, b) =>
      simp only [List.map_cons, List.nodup_cons] at hnd
      obtain ⟨hna, hnd2⟩ := hnd
      rcases List.mem_cons.mp hm with hh | hh
      · injection hh with h1 h2
        simp only [countOf]
        rw [if_pos h1.symm]
        exact h2.symm
      · simp only [countOf]
        by_cases hae : a = e
        · exfalso
          apply hna
          rw [hae]
          exact List.mem_map_of_mem Prod.fst hh
        · rw [if_neg hae]
          exact ih hnd2 hh

theorem digitChar_isDigit (d : Nat) : (digitChar d).isDigit = true := by
  have hall : ∀ k, k < 10 → (Char.ofNat (48 + k)).isDigit = true := by decide
  unfold digitChar
  exact hall (d % 10) (Nat.mod_lt _ (by omega))

theorem natLCCore_digits :
    ∀ (fuel n : Nat) (acc : List Char), (∀ c ∈ acc, c.isDigit = true) →
      ∀ c ∈ natLCCore fuel n acc, c.isDigit = true := by
  intro fuel
  induction fuel with
  | zero => intro n acc h; exact h
  | succ f ih =>
    intro n acc h c hc
    simp only [natLCCore] at hc
    by_cases hn : n < 10
    · rw [if_pos hn] at hc
      rcases List.mem_cons.mp hc with hh | hh
      · rw [hh]; exact digitChar_isDigit n
      · exact h c hh
    · rw [if_neg hn] at hc
      refine ih (n / 10) (digitChar (n % 10) :: acc) ?_ c hc
      intro d hd
      rcases List.mem_cons.mp hd with hh | hh
      · rw [hh]; exact digitChar_isDigit (n % 10)
      · exact h d hh

theorem natLC_digits (n : Nat) : ∀ c ∈ natLC n, c.isDigit = true :=
  natLCCore_digits (n + 1) n [] (by simp)

theorem digit_not_delims (c : Char) (h : c.isDigit = true) :
    c ≠ lbrace ∧ c ≠ rbrace := by
  constructor <;> (intro he; rw [he] at h; exact absurd h (by decide))

theorem natLCCore_ne_nil :
    ∀ (fuel n : Nat) (acc : List Char), (acc ≠ [] ∨ 0 < fuel) →
      natLCCore fuel n acc ≠ [] := by
  intro fuel
  induction fuel with
  | zero =>
    intro n acc h
    rcases h with h | h
    · exact h
    · omega
  | succ f ih =>
    intro n acc _
    simp only [natLCCore]
    by_cases hn : n < 10
    · rw [if_pos hn]; simp
    · rw [if_neg hn]
      exact ih (n / 10) _ (Or.inl (by simp))

theorem natLC_ne_nil (n : Nat) : natLC n ≠ [] :=
  natLCCore_ne_nil (n + 1) n [] (Or.inr (by omega))

theorem lrOnceP_zip (E F : List Char) :
    ∀ (ns ls : List (List Char)),
      lrOnceP (List.zip ns ls) E F = List.zip (listReplOnce ns E F) ls := by
  intro ns
  induction ns with
  | nil => intro ls; simp [lrOnceP, listReplOnce]
  | cons n t ih =>
    intro ls
    match ls with
    | [] => simp [lrOnceP, listReplOnce]
    | l :: ls2 =>
      simp only [List.zip_cons_cons, lrOnceP, listReplOnce]
      by_cases hne : n = E
      · rw [if_pos hne, if_pos hne]
        rfl
      · rw [if_neg hne, if_neg hne]
        show (n, l) :: lrOnceP (t.zip ls2) E F = (n, l) :: (listReplOnce t E F).zip ls2
        rw [ih ls2]

theorem listReplOnce_mem (E F : List Char) :
    ∀ (ns : List (List Char)) (x : List Char),
      x ∈ listReplOnce ns E F → x ∈ ns ∨ x = F := by
  intro ns
  induction ns with
  | nil => intro x hx; simp [listReplOnce] at hx
  | cons n t ih =>
    intro x hx
    simp only [listReplOnce] at hx
    by_cases hne : n = E
    · rw [if_pos hne] at hx
      rcases List.mem_cons.mp hx with hh | hh
      · right; exact hh
      · left; simp [hh]
    · rw [if_neg hne] at hx
      rcases List.mem_cons.mp hx with hh | hh
      · left; simp [hh]
      · rcases ih x hh with h2 | h2
        · left; simp [h2]
        · right; exact h2

theorem renameLoopL_mem (E : List Char) :
    ∀ (c : Nat) (ns : List (List Char)) (x : List Char),
      x ∈ renameLoopL E c ns → x ∈ ns ∨ ∃ k, x = E ++ natLC k := by
  intro c
  induction c using Nat.strong_induction_on with
  | _ c ih =>
    intro ns x hx
    match c with
    | 0 => left; exact hx
    | 1 => left; exact hx
    | Nat.succ (Nat.succ c0) =>
      simp only [renameLoopL] at hx
      rcases ih (c0 + 1) (by omega) _ x hx with h2 | h2
      · rcases listReplOnce_mem E (E ++ natLC (c0 + 2)) ns x h2 with h3 | h3
        · left; exact h3
        · right; exact ⟨c0 + 2, h3⟩
      · right; exact h2

theorem renameLoop_assemble (E : List Char)
    (hE : ∀ ch ∈ E, ch ≠ lbrace ∧ ch ≠ rbrace) :
    ∀ (c : Nat) (ns ls : List (List Char)) (l0 : List Char),
      (∀ ch ∈ l0, ch ≠ lbrace) → (∀ l ∈ ls, ∀ ch ∈ l, ch ≠ lbrace) →
      (∀ n ∈ ns, ∀ ch ∈ n, ch ≠ lbrace ∧ ch ≠ rbrace) →
      renameLoop E c (assemble lbrace rbrace l0 (List.zip ns ls)) =
        assemble lbrace rbrace l0 (List.zip (renameLoopL E c ns) ls) := by
  intro c
  induction c using Nat.strong_induction_on with
  | _ c ih =>
    intro ns ls l0 hl0 hls hns
    match c with
    | 0 => rfl
    | 1 => rfl
    | Nat.succ (Nat.succ c0) =>
      show renameLoop E (c0 + 1) (replaceOnce (tokB E) (tokB (E ++ natLC (c0 + 2)))
        (assemble lbrace rbrace l0 (List.zip ns ls))) = _
      have hstep : replaceOnce (tokB E) (tokB (E ++ natLC (c0 + 2)))
          (assemble lbrace rbrace l0 (List.zip ns ls)) =
          assemble lbrace rbrace l0
            (List.zip (listReplOnce ns E (E ++ natLC (c0 + 2))) ls) := by
        show replaceOnce (lbrace :: (E ++ [rbrace]))
          (lbrace :: ((E ++ natLC (c0 + 2)) ++ [rbrace])) _ = _
        rw [replaceOnce_assemble lbrace rbrace (by decide) E (E ++ natLC (c0 + 2))
          (fun ch hc => (hE ch hc).2) (List.zip ns ls) l0 hl0 (by
            intro p hp
            obtain ⟨hp1, hp2⟩ := List.of_mem_zip hp
            exact ⟨fun ch hc => (hns p.1 hp1 ch hc), fun ch hc => hls p.2 hp2 ch hc⟩)]
        rw [lrOnceP_zip]
      rw [hstep]
      rw [ih (c0 + 1) (by omega) (listReplOnce ns E (E ++ natLC (c0 + 2))) ls l0 hl0 hls (by
        intro n hn ch hc
        rcases listReplOnce_mem E (E ++ natLC (c0 + 2)) ns n hn with h2 | h2
        · exact hns n h2 ch hc
        · rw [h2] at hc
          rcases List.mem_append.mp hc with h3 | h3
          · exact hE ch h3
          · exact digit_not_delims ch (natLC_digits (c0 + 2) ch h3))]
      rfl

theorem applyRenames_assemble :
    ∀ (m : List (List Char × Nat)) (ns ls : List (List Char)) (l0 : List Char),
      (∀ ch ∈ l0, ch ≠ lbrace) → (∀ l ∈ ls, ∀ ch ∈ l, ch ≠ lbrace) →
      (∀ n ∈ ns, ∀ ch ∈ n, ch ≠ lbrace ∧ ch ≠ rbrace) →
      (∀ p ∈ m, ∀ ch ∈ p.1, ch ≠ lbrace ∧ ch ≠ rbrace) →
      applyRenames m (assemble lbrace rbrace l0 (List.zip ns ls)) =
        assemble lbrace rbrace l0 (List.zip (applyRenamesL m ns) ls) := by
  intro m
  induction m with
  | nil => intro ns ls l0 _ _ _ _; rfl
  | cons p rest ih =>
    intro ns ls l0 hl0 hls hns hm
    match p with
    | (e, c) =>
      show applyRenames rest (renameLoop e c (assemble lbrace rbrace l0 (List.zip ns ls))) = _
      rw [renameLoop_assemble e (hm (e, c) (by simp)) c ns ls l0 hl0 hls hns]
      rw [ih (renameLoopL e c ns) ls l0 hl0 hls (by
        intro n hn ch hc
        rcases renameLoopL_mem e c ns n hn with h2 | h2
        · exact hns n h2 ch hc
        · obtain ⟨k, hk⟩ := h2
          rw [hk] at hc
          rcases List.mem_append.mp hc with h3 | h3
          · exact hm (e, c) (by simp) ch h3
          · exact digit_not_delims ch (natLC_digits k ch h3))
        (fun q hq => hm q (by simp [hq]))]
      rfl

theorem append_natLC_ne (e : List Char) (k : Nat) : e ++ natLC k ≠ e := by
  intro h
  have h2 := congrArg List.length h
  simp only [List.length_append] at h2
  exact absurd (List.length_eq_zero.mp (by omega)) (natLC_ne_nil k)

theorem listReplOnce_split (E X : List Char) :
    ∀ (ns : List (List Char)), E ∈ ns →
      ∃ pre suf, ns = pre ++ E :: suf ∧ ¬ E ∈ pre ∧
        listReplOnce ns E X = pre ++ X :: suf := by
  intro ns
  induction ns with
  | nil => intro h; simp at h
  | cons n t ih =>
    intro h
    by_cases hne : n = E
    · refine ⟨[], t, by simp [hne], by simp, ?_⟩
      simp [listReplOnce, hne]
    · have hmem : E ∈ t := by
        rcases List.mem_cons.mp h with hh | hh
        · exact absurd hh.symm hne
        · exact hh
      obtain ⟨pre, suf, h1, h2, h3⟩ := ih hmem
      refine ⟨n :: pre, suf, by simp [h1], ?_, ?_⟩
      · simp only [List.mem_cons, not_or]
        exact ⟨fun hx => hne hx.symm, h2⟩
      · simp only [listReplOnce, if_neg hne, h3, List.cons_append]

theorem rrevL_low (e : List Char) :
    ∀ (ns : List (List Char)) (c : Nat), c ≤ 1 → rrevL e c ns = ns := by
  intro ns
  induction ns with
  | nil => intro c _; rfl
  | cons n t ih =>
    intro c hc
    simp only [rrevL]
    by_cases hne : n = e
    · rw [if_pos hne, if_neg (by omega), ih c hc]
    · rw [if_neg hne, ih c hc]

theorem rrevL_skip (e : List Char) (c : Nat) :
    ∀ (pre x : List (List Char)), ¬ e ∈ pre →
      rrevL e c (pre ++ x) = pre ++ rrevL e c x := by
  intro pre
  induction pre generalizing c with
  | nil => intro x _; simp
  | cons n t ih =>
    intro x h
    have hne : n ≠ e := by
      intro hx
      exact h (by simp [hx])
    simp only [List.cons_append, rrevL, if_neg hne, List.append_eq]
    rw [ih c x (fun hx => h (by simp [hx]))]

theorem renameLoopL_eq_rrevL (e : List Char) :
    ∀ (c : Nat) (ns : List (List Char)), c ≤ List.count e ns →
      renameLoopL e c ns = rrevL e c ns := by
  intro c
  induction c using Nat.strong_induction_on with
  | _ c ih =>
    intro ns hc
    match c with
    | 0 => exact (rrevL_low e ns 0 (by omega)).symm
    | 1 => exact (rrevL_low e ns 1 (by omega)).symm
    | Nat.succ (Nat.succ c0) =>
      have hmem : e ∈ ns := List.count_pos_iff.mp (by omega)
      obtain ⟨pre, suf, h1, h2, h3⟩ :=
        listReplOnce_split e (e ++ natLC (c0 + 2)) ns hmem
      have hcntpre : List.count e pre = 0 := List.count_eq_zero.mpr h2
      have hX : e ++ natLC (c0 + 2) ≠ e := append_natLC_ne e (c0 + 2)
      have hcnt : List.count e ns = List.count e suf + 1 := by
        rw [h1]
        simp [List.count_append, List.count_cons, hcntpre]
      show renameLoopL e (c0 + 1) (listReplOnce ns e (e ++ natLC (c0 + 2))) = _
      rw [h3]
      have hcnt2 : List.count e (pre ++ (e ++ natLC (c0 + 2)) :: suf) =
          List.count e suf := by
        simp only [List.count_append, List.count_cons, hcntpre]
        rw [if_neg (by
          intro hx
          exact hX (by
            have := (beq_iff_eq).mp hx
            exact this))]
        simp
      rw [ih (c0 + 1) (by omega) _ (by rw [hcnt2]; omega)]
      rw [rrevL_skip e (c0 + 1) pre _ h2]
      have hr1 : rrevL e (c0 + 1) ((e ++ natLC (c0 + 2)) :: suf) =
          (e ++ natLC (c0 + 2)) :: rrevL e (c0 + 1) suf := by
        simp only [rrevL, if_neg hX]
      rw [hr1]
      rw [h1, rrevL_skip e (c0 + 2) pre _ h2]
      have hr2 : rrevL e (c0 + 2) (e :: suf) =
          (e ++ natLC (c0 + 2)) :: rrevL e (c0 + 1) suf := by
        simp only [rrevL, if_pos rfl, if_pos (by omega : 2 ≤ c0 + 2)]
        rfl
      rw [hr2]

theorem srrAuxOn_nil_K (all : List (List Char)) :
    ∀ (t pre : List (List Char)), srrAuxOn [] all pre t = t := by
  intro t
  induction t with
  | nil => intro pre; rfl
  | cons n t2 ih =>
    intro pre
    simp only [srrAuxOn]
    rw [if_neg (List.not_mem_nil n)]
    rw [ih (pre ++ [n])]

theorem srrAuxOn_notin (K all : List (List Char)) (e : List Char) :
    ∀ (t pre : List (List Char)), ¬ e ∈ t →
      srrAuxOn (K ++ [e]) all pre t = srrAuxOn K all pre t := by
  intro t
  induction t with
  | nil => intro pre _; rfl
  | cons n t2 ih =>
    intro pre h
    have hne : n ≠ e := by
      intro hx
      exact h (by simp [hx])
    have hiff : (n ∈ K ++ [e]) ↔ n ∈ K := by
      simp only [List.mem_append, List.mem_singleton]
      constructor
      · rintro (hh | hh)
        · exact hh
        · exact absurd hh hne
      · exact Or.inl
    simp only [srrAuxOn]
    rw [ih (pre ++ [n]) (fun hx => h (by simp [hx]))]
    by_cases hnK : n ∈ K
    · rw [if_pos (hiff.mpr hnK), if_pos hnK]
    · rw [if_neg (fun hx => hnK (hiff.mp hx)), if_neg hnK]

theorem srrAuxOn_full (K all : List (List Char)) (hK : ∀ n ∈ all, n ∈ K) :
    ∀ (t pre : List (List Char)), all = pre ++ t →
      srrAuxOn K all pre t = srrAux all pre t := by
  intro t
  induction t with
  | nil => intro pre _; rfl
  | cons n t2 ih =>
    intro pre hsplit
    have hn : n ∈ all := by
      rw [hsplit]
      simp
    simp only [srrAuxOn, srrAux, if_pos (hK n hn)]
    rw [ih (pre ++ [n]) (by rw [hsplit]; simp)]

theorem rrevL_srrAuxOn (all : List (List Char)) (hnc : noCollision all)
    (e : List Char) (heall : e ∈ all) (K : List (List Char)) (heK : ¬ e ∈ K) :
    ∀ (t pre : List (List Char)), all = pre ++ t →
      rrevL e (List.count e all - List.count e pre) (srrAuxOn K all pre t) =
        srrAuxOn (K ++ [e]) all pre t := by
  intro t
  induction t with
  | nil => intro pre _; rfl
  | cons n t2 ih =>
    intro pre hsplit
    by_cases hne : n = e
    · have hne2 : e = n := hne.symm
      subst hne2
      have hcnt : List.count e all - List.count e pre = List.count e t2 + 1 := by
        rw [hsplit]
        simp [List.count_append, List.count_cons]
      have hcnt3 : List.count e (pre ++ [e]) = List.count e pre + 1 := by
        simp [List.count_append, List.count_cons]
      simp only [srrAuxOn, if_neg heK, if_pos (by simp : e ∈ K ++ [e])]
      rw [hcnt]
      simp only [rrevL, if_pos rfl]
      by_cases h2 : 2 ≤ List.count e t2 + 1
      · rw [if_pos h2]
        have hcond : ¬ (List.count e pre + 1 = List.count e all) := by
          rw [hsplit]
          simp [List.count_append, List.count_cons]
          omega
        rw [if_neg hcond]
        simp only [if_true]
        have hih := ih (pre ++ [e]) (by rw [hsplit]; simp)
        have htail : List.count e all - List.count e (pre ++ [e]) =
            List.count e t2 + 1 - 1 := by
          rw [hcnt3]
          omega
        rw [htail] at hih
        rw [hih]
      · rw [if_neg h2]
        have hz : List.count e t2 = 0 := by omega
        have hnotin : ¬ e ∈ t2 := by
          intro hx
          have := List.count_pos_iff.mpr hx
          omega
        rw [rrevL_low e _ _ (by omega)]
        have hcond : List.count e pre + 1 = List.count e all := by
          rw [hsplit]
          simp [List.count_append, List.count_cons]
          omega
        rw [if_pos hcond]
        rw [srrAuxOn_notin K all e t2 (pre ++ [e]) hnotin]
        simp
    · have hn_all : n ∈ all := by
        rw [hsplit]
        simp
      have hcntpre : List.count e (pre ++ [n]) = List.count e pre := by
        simp only [List.count_append, List.count_cons, List.count_nil]
        rw [if_neg (by
          intro hx
          exact hne ((beq_iff_eq).mp hx))]
        omega
      have hiff : (n ∈ K ++ [e]) ↔ n ∈ K := by
        simp only [List.mem_append, List.mem_singleton]
        constructor
        · rintro (hh | hh)
          · exact hh
          · exact absurd hh hne
        · exact Or.inl
      have himg_ne : ∀ (img : List Char),
          img = (if List.count n pre + 1 = List.count n all then n
            else n ++ natLC (List.count n all - List.count n pre)) → img ≠ e := by
        intro img himg
        by_cases hcond : List.count n pre + 1 = List.count n all
        · rw [if_pos hcond] at himg
          rw [himg]
          exact fun hx => hne hx
        · rw [if_neg hcond] at himg
          rw [himg]
          intro hx
          have hkn : List.count n all = List.count n pre + List.count n t2 + 1 := by
            rw [hsplit]
            simp [List.count_append, List.count_cons]
            omega
          have hk2 : 2 ≤ List.count n all - List.count n pre := by omega
          have hkle : List.count n all - List.count n pre < List.count n all + 1 := by
            omega
          exact hnc e heall n hn_all (List.count n all - List.count n pre)
            (List.mem_range.mpr hkle) hk2 hx.symm
      simp only [srrAuxOn]
      by_cases hnK : n ∈ K
      · rw [if_pos (hiff.mpr hnK), if_pos hnK]
        have hhead :
            (if List.count n pre + 1 = List.count n all then n
              else n ++ natLC (List.count n all - List.count n pre)) ≠ e :=
          himg_ne _ rfl
        simp only [rrevL, if_neg hhead]
        have hih := ih (pre ++ [n]) (by rw [hsplit]; simp)
        rw [hcntpre] at hih
        rw [hih]
      · rw [if_neg (fun hx => hnK (hiff.mp hx)), if_neg hnK]
        simp only [rrevL, if_neg hne]
        have hih := ih (pre ++ [n]) (by rw [hsplit]; simp)
        rw [hcntpre] at hih
        rw [hih]

theorem srr_img_ne (all : List (List Char)) (hnc : noCollision all)
    (e : List Char) (heall : e ∈ all) (n : List Char) (hn_all : n ∈ all)
    (hne : n ≠ e) (pre t2 : List (List Char)) (hsplit : all = pre ++ n :: t2) :
    (if List.count n pre + 1 = List.count n all then n
      else n ++ natLC (List.count n all - List.count n pre)) ≠ e := by
  by_cases hcond : List.count n pre + 1 = List.count n all
  · rw [if_pos hcond]
    exact hne
  · rw [if_neg hcond]
    intro hx
    have hkn : List.count n all = List.count n pre + List.count n t2 + 1 := by
      rw [hsplit]
      simp [List.count_append, List.count_cons]
      omega
    have hk2 : 2 ≤ List.count n all - List.count n pre := by omega
    have hkle : List.count n all - List.count n pre < List.count n all + 1 := by omega
    exact hnc e heall n hn_all (List.count n all - List.count n pre)
      (List.mem_range.mpr hkle) hk2 hx.symm

theorem count_srrAuxOn (all : List (List Char)) (hnc : noCollision all)
    (e : List Char) (heall : e ∈ all) (K : List (List Char)) (heK : ¬ e ∈ K) :
    ∀ (t pre : List (List Char)), all = pre ++ t →
      List.count e (srrAuxOn K all pre t) = List.count e t := by
  intro t
  induction t with
  | nil => intro pre _; rfl
  | cons n t2 ih =>
    intro pre hsplit
    have hn_all : n ∈ all := by
      rw [hsplit]
      simp
    simp only [srrAuxOn]
    rw [List.count_cons, List.count_cons]
    rw [ih (pre ++ [n]) (by rw [hsplit]; simp)]
    by_cases hne : n = e
    · have hne2 : e = n := hne.symm
      subst hne2
      rw [if_neg heK]
    · have himg : (if n ∈ K then
          (if List.count n pre + 1 = List.count n all then n
            else n ++ natLC (List.count n all - List.count n pre))
          else n) ≠ e := by
        by_cases hnK : n ∈ K
        · rw [if_pos hnK]
          exact srr_img_ne all hnc e heall n hn_all hne pre t2 hsplit
        · rw [if_neg hnK]
          exact hne
      rw [if_neg (by
        intro hx
        exact himg ((beq_iff_eq).mp hx))]
      rw [if_neg (by
        intro hx
        exact hne ((beq_iff_eq).mp hx))]

theorem applyRenamesL_fold (all : List (List Char)) (hnc : noCollision all) :
    ∀ (m : List (List Char × Nat)) (K : List (List Char)),
      (∀ p ∈ m, ¬ p.1 ∈ K) →
      (∀ p ∈ m, p.2 = List.count p.1 all ∧ p.1 ∈ all) →
      ((m.map Prod.fst).Nodup) →
      applyRenamesL m (srrAuxOn K all [] all) =
        srrAuxOn (K ++ m.map Prod.fst) all [] all := by
  intro m
  induction m with
  | nil =>
    intro K _ _ _
    simp [applyRenamesL]
  | cons p rest ih =>
    intro K hK hent hnd
    match p with
    | (e, c) =>
      have heK : ¬ e ∈ K := hK (e, c) (by simp)
      have heall : e ∈ all := (hent (e, c) (by simp)).2
      have hc : c = List.count e all := (hent (e, c) (by simp)).1
      show applyRenamesL rest (renameLoopL e c (srrAuxOn K all [] all)) = _
      have hcount : List.count e (srrAuxOn K all [] all) = List.count e all :=
        count_srrAuxOn all hnc e heall K heK all [] (by simp)
      rw [renameLoopL_eq_rrevL e c _ (by rw [hcount, hc])]
      have hG := rrevL_srrAuxOn all hnc e heall K heK all [] (by simp)
      simp only [List.count_nil, Nat.sub_zero] at hG
      rw [hc, hG]
      simp only [List.map_cons, List.nodup_cons] at hnd
      rw [ih (K ++ [e]) (by
          intro q hq
          simp only [List.mem_append, List.mem_singleton, not_or]
          refine ⟨fun hx => hK q (by simp [hq]) hx, ?_⟩
          intro hx
          exact hnd.1 (hx ▸ List.mem_map_of_mem Prod.fst hq))
        (fun q hq => hent q (by simp [hq])) hnd.2]
      rw [List.append_assoc]
      rfl

theorem bump_pos (m : List (List Char × Nat)) (k : List Char)
    (h : ∀ p ∈ m, 1 ≤ p.2) : ∀ p ∈ bump m k, 1 ≤ p.2 := by
  induction m with
  | nil =>
    intro p hp
    simp only [bump, List.mem_singleton] at hp
    rw [hp]
  | cons q t ih =>
    intro p hp
    match q with
    | (a, c) =>
      by_cases hak : a = k
      · simp only [bump, if_pos hak] at hp
        rcases List.mem_cons.mp hp with hh | hh
        · rw [hh]; omega
        · exact h p (by simp [hh])
      · simp only [bump, if_neg hak] at hp
        rcases List.mem_cons.mp hp with hh | hh
        · rw [hh]
          exact h (a, c) (by simp)
        · exact ih (fun q2 hq2 => h q2 (by simp [hq2])) p hh

theorem buildRepl_pos :
    ∀ (t : List (List Char)) (m : List (List Char × Nat)),
      (∀ p ∈ m, 1 ≤ p.2) → ∀ p ∈ (buildRepl t m).2, 1 ≤ p.2 := by
  intro t
  induction t with
  | nil => intro m h; exact h
  | cons n t2 ih =>
    intro m h
    exact ih (bump m n) (bump_pos m n h)

theorem buildRepl_counts (ns : List (List Char)) :
    ∀ e, countOf (buildRepl ns []).2 e = List.count e ns := by
  intro e
  have h := (buildRepl_spec ns [] [] (by intro d; simp [countOf])).2 e
  simpa using h

theorem buildRepl_entries (ns : List (List Char)) :
    ∀ p ∈ (buildRepl ns []).2, p.2 = List.count p.1 ns ∧ p.1 ∈ ns := by
  intro p hp
  have hnodup := buildRepl_nodup ns [] (by simp)
  have h1 : countOf (buildRepl ns []).2 p.1 = p.2 :=
    mem_countOf _ hnodup p.1 p.2 (by simpa using hp)
  have h2 : p.2 = List.count p.1 ns := by
    rw [← h1, buildRepl_counts]
  refine ⟨h2, ?_⟩
  have h3 : 1 ≤ p.2 := buildRepl_pos ns [] (by simp) p hp
  exact List.count_pos_iff.mp (by omega)

theorem applyRenamesL_full (ns : List (List Char)) (hnc : noCollision ns) :
    applyRenamesL (buildRepl ns []).2 ns = specRenameRev ns := by
  have hnodup := buildRepl_nodup ns [] (by simp)
  have hcover : ∀ n ∈ ns, n ∈ ((buildRepl ns []).2).map Prod.fst := by
    intro n hn
    apply countOf_pos_mem
    rw [buildRepl_counts]
    exact List.count_pos_iff.mpr hn
  have h0 : ns = srrAuxOn [] ns [] ns := (srrAuxOn_nil_K ns ns []).symm
  calc applyRenamesL (buildRepl ns []).2 ns
      = applyRenamesL (buildRepl ns []).2 (srrAuxOn [] ns [] ns) := by rw [← h0]
    _ = srrAuxOn ([] ++ ((buildRepl ns []).2).map Prod.fst) ns [] ns :=
        applyRenamesL_fold ns hnc (buildRepl ns []).2 [] (by simp)
          (buildRepl_entries ns) hnodup
    _ = srrAux ns [] ns := by
        rw [List.nil_append]
        exact srrAuxOn_full _ ns hcover ns [] (by simp)
    _ = specRenameRev ns := rfl

/-! ## Claim C2: the amended parser contract -/

/-- C2 (amended): for a well-formed template assembled from brace-free
literals and nonempty [A-Z_0-9]+ placeholder names with no suffix
collisions, get_template_entities returns (a) the template renamed in
REVERSE scan order - for a type occurring n >= 2 times the first occurrence
becomes NAMEn, descending to NAME2, and the LAST occurrence keeps the bare
name (specRenameRev) - (b) the identifier list in scan order where the
first occurrence stays bare and the k-th occurrence gets suffix k
(specRenameList), which therefore does not positionally match the
template's renaming, and (c) a counter giving each base type's occurrence
count; suffix 1 is never emitted by either side. -/
theorem c2_amended (l0 : List Char) (ns ls : List (List Char))
    (hlen : ns.length ≤ ls.length)
    (hl0 : ∀ c ∈ l0, c ≠ lbrace)
    (hls : ∀ l ∈ ls, ∀ c ∈ l, c ≠ lbrace)
    (hns : ∀ n ∈ ns, n ≠ [] ∧ ∀ c ∈ n, isClassChar c = true)
    (hnc : noCollision ns) :
    get_template_entities (assemble lbrace rbrace l0 (List.zip ns ls)) =
      (assemble lbrace rbrace l0 (List.zip (specRenameRev ns) ls),
       specRenameList ns, (buildRepl ns []).2) ∧
    (∀ e, countOf (buildRepl ns []).2 e = List.count e ns) := by
  have hscan : scanTemplate (assemble lbrace rbrace l0 (List.zip ns ls)) = ns := by
    rw [scanTemplate_assemble l0 (List.zip ns ls) hl0 (by
      intro p hp
      obtain ⟨hp1, hp2⟩ := List.of_mem_zip hp
      exact ⟨hns p.1 hp1, fun c hc => hls p.2 hp2 c hc⟩)]
    unfold namesOf
    exact List.map_fst_zip ns ls hlen
  refine ⟨?_, buildRepl_counts ns⟩
  simp only [get_template_entities]
  rw [hscan]
  have h1 : applyRenames (buildRepl ns []).2
      (assemble lbrace rbrace l0 (List.zip ns ls)) =
      assemble lbrace rbrace l0
        (List.zip (applyRenamesL (buildRepl ns []).2 ns) ls) :=
    applyRenames_assemble (buildRepl ns []).2 ns ls l0 hl0 hls
      (fun n hn ch hc =>
        ⟨(classChar_not_delims ch ((hns n hn).2 ch hc)).1,
         (classChar_not_delims ch ((hns n hn).2 ch hc)).2.1⟩)
      (fun p hp ch hc =>
        ⟨(classChar_not_delims ch
            ((hns p.1 (buildRepl_entries ns p hp).2).2 ch hc)).1,
         (classChar_not_delims ch
            ((hns p.1 (buildRepl_entries ns p hp).2).2 ch hc)).2.1⟩)
  rw [h1, applyRenamesL_full ns hnc]
  rw [(buildRepl_spec ns [] [] (by intro d; simp [countOf])).1]
  rfl

/-- Witness for C2 at the template "{A} x {A} y {A}": the code yields
"{A3} x {A2} y {A}" (reverse renaming), identifiers [A, A2, A3], and
count 3 for A. -/
theorem c2_witness :
    assemble lbrace rbrace []
        (List.zip [("A").data, ("A").data, ("A").data]
          [(" x ").data, (" y ").data, []]) = ("{A} x {A} y {A}").data ∧
    get_template_entities (assemble lbrace rbrace []
        (List.zip [("A").data, ("A").data, ("A").data]
          [(" x ").data, (" y ").data, []])) =
      (assemble lbrace rbrace []
        (List.zip (specRenameRev [("A").data, ("A").data, ("A").data])
          [(" x ").data, (" y ").data, []]),
       specRenameList [("A").data, ("A").data, ("A").data],
       (buildRepl [("A").data, ("A").data, ("A").data] []).2) ∧
    countOf (buildRepl [("A").data, ("A").data, ("A").data] []).2 (("A").data) =
      List.count (("A").data) [("A").data, ("A").data, ("A").data] := by
  have h := c2_amended [] [("A").data, ("A").data, ("A").data]
    [(" x ").data, (" y ").data, []] (by decide) (by decide) (by decide)
    (by decide) (by decide)
  exact ⟨by decide, h.1, h.2 (("A").data)⟩

/-! ## Claim C1, amended: span validity of the renderer -/

theorem mlower_length (tl : Bool) (s : List Char) :
    (mlower tl s).length = s.length := by
  cases tl <;> simp [mlower, lowerLC]

theorem mlower_slice (tl : Bool) (s : List Char) (a b : Nat) :
    slice (mlower tl s) a b = mlower tl (slice s a b) := by
  cases tl <;> simp [mlower, slice_lower]

theorem mlower_nil (tl : Bool) : mlower tl [] = [] := by
  cases tl <;> simp [mlower, lowerLC]

theorem mlower_getLast (tl : Bool) (x : List Char) (c : Char)
    (h : (mlower tl x).getLast? = some c) :
    ∃ d, x.getLast? = some d ∧ c = (if tl then Char.toLower d else d) := by
  cases tl
  · exact ⟨c, by simpa [mlower] using h, rfl⟩
  · simp only [mlower, if_pos, lowerLC, List.getLast?_map] at h
    obtain ⟨d, hd, hcd⟩ := Option.map_eq_some'.mp h
    exact ⟨d, hd, hcd.symm⟩

theorem mem_dropWhile (p : Char → Bool) (l : List Char) (c : Char)
    (h : c ∈ List.dropWhile p l) : c ∈ l := by
  induction l with
  | nil => simp [List.dropWhile] at h
  | cons x xs ih =>
    rw [List.dropWhile_cons] at h
    by_cases hp : p x = true
    · rw [if_pos hp] at h
      exact List.mem_cons_of_mem _ (ih h)
    · rw [if_neg hp] at h
      exact h

theorem mem_pyStrip (v : List Char) (c : Char) (h : c ∈ pyStrip v) : c ∈ v := by
  unfold pyStrip at h
  rw [List.mem_reverse] at h
  have h2 := mem_dropWhile _ _ _ h
  rw [List.mem_reverse] at h2
  exact mem_dropWhile _ _ _ h2

theorem pyStrip_getLast (v : List Char) (c : Char)
    (h : (pyStrip v).getLast? = some c) : c.isWhitespace = false := by
  unfold pyStrip at h
  rw [List.getLast?_reverse] at h
  have hd := List.head?_dropWhile_not Char.isWhitespace
    ((v.dropWhile Char.isWhitespace).reverse)
  rw [h] at hd
  exact hd

theorem slice_last (s : List Char) (a b : Nat) (ha : a < b) (hb : b ≤ s.length) :
    (slice s a b).getLast? = s[b - 1]? := by
  rw [List.getLast?_eq_getElem?, slice_len s a b (by omega) hb]
  unfold slice
  rw [List.getElem?_take, if_pos (by omega), List.getElem?_drop]
  congr 1
  omega

theorem get_front (u v : List Char) (j : Nat) (hj : j < u.length) :
    (u ++ v)[j]? = u[j]? := by
  rw [List.getElem?_append, if_pos hj]

theorem get_mid (u v w : List Char) (j : Nat) (h1 : u.length ≤ j)
    (h2 : j < u.length + v.length) :
    (u ++ v ++ w)[j]? = v[j - u.length]? := by
  rw [List.append_assoc, List.getElem?_append, if_neg (by omega),
    List.getElem?_append, if_pos (by omega)]

theorem editPres_slice (s v w : List Char) (es a b : Nat)
    (hesl : es ≤ s.length) (hb : b ≤ es) :
    slice (s.take es ++ v ++ w) a b = slice s a b := by
  have hu : (s.take es).length = es := by
    rw [List.length_take]
    omega
  rw [List.append_assoc, slice_front _ _ a b (by omega), slice_take es s a b hb]

theorem editPres_get (s v w : List Char) (es j : Nat)
    (hesl : es ≤ s.length) (hj : j < es) :
    (s.take es ++ v ++ w)[j]? = s[j]? := by
  have hu : (s.take es).length = es := by
    rw [List.length_take]
    omega
  rw [List.append_assoc, List.getElem?_append, if_pos (by omega),
    List.getElem?_take, if_pos hj]

theorem take_edit (s v w : List Char) (es k : Nat)
    (hesl : es ≤ s.length) (hk : k ≤ es) :
    (s.take es ++ v ++ w).take k = s.take k := by
  have hu : (s.take es).length = es := by
    rw [List.length_take]
    omega
  rw [List.append_assoc, List.take_append_of_le_length (by omega), List.take_take]
  congr 1
  omega

theorem drop_edit (s v w : List Char) (es : Nat) (hesl : es ≤ s.length) :
    (s.take es ++ v ++ w).drop es = v ++ w := by
  have hu : (s.take es).length = es := by
    rw [List.length_take]
    omega
  rw [List.append_assoc, List.drop_append_eq_append_drop, hu, Nat.sub_self,
    List.drop_zero, List.drop_eq_nil_of_le (by omega), List.nil_append]

theorem pyNorm_of_nonneg (n : Nat) (i : Int) (h : 0 ≤ i) :
    pyNorm n i = min n i.toNat := by
  unfold pyNorm
  rw [if_neg (by omega)]
  omega

theorem slice_length (s : List Char) (a b : Nat) :
    (slice s a b).length = min (b - a) (s.length - a) := by
  unfold slice
  rw [List.length_take, List.length_drop]

theorem pySlice_init (s : List Char) (k : Nat) (hk : k ≤ s.length) :
    pySlice s 0 (k : Int) = s.take k := by
  unfold pySlice
  rw [pyNorm_of_nonneg _ _ (by omega), pyNorm_of_nonneg _ _ (by omega)]
  have h0 : min s.length (0 : Int).toNat = 0 := by omega
  have h1 : min s.length (k : Int).toNat = k := by omega
  rw [h0, h1]
  unfold slice
  rw [List.drop_zero, Nat.sub_zero]

theorem pyNorm_le (n : Nat) (i : Int) : pyNorm n i ≤ n := by
  unfold pyNorm
  split <;> omega

theorem artCond_facts (s1 : List Char) (es : Nat) (h : artCond s1 es = true) :
    2 ≤ es ∧ ∃ cw, s1[es - 1]? = some cw ∧ cw.toLower = ' ' := by
  unfold artCond at h
  have hp := of_decide_eq_true h
  rcases hp with ⟨h1, he2⟩ | h2
  · have hstr : ("a ").data = 'a' :: ' ' :: [] := rfl
    rw [hstr] at h1
    unfold pySlice at h1
    rw [pyNorm_of_nonneg _ _ (by omega), pyNorm_of_nonneg _ _ (by omega)] at h1
    have ha0 : ((es : Int) - 2).toNat = 0 := by omega
    have hb2 : ((es : Int)).toNat = es := by omega
    rw [ha0, hb2, Nat.min_zero] at h1
    have hlen := congrArg List.length h1
    simp only [lowerLC, List.length_map, slice_length, List.length_cons,
      List.length_nil, Nat.sub_zero] at hlen
    have hget := congrArg (fun l => l[1]?) h1
    simp only [lowerLC, List.getElem?_map] at hget
    have hr : ('a' :: ' ' :: [] : List Char)[1]? = some ' ' := rfl
    rw [hr] at hget
    unfold slice at hget
    rw [List.drop_zero, Nat.sub_zero, List.getElem?_take, if_pos (by omega)] at hget
    obtain ⟨cw, hcw, hcl⟩ := Option.map_eq_some'.mp hget
    have hidx : es - 1 = 1 := by omega
    rw [hidx]
    exact ⟨by omega, cw, hcw, hcl⟩
  · have hstr : (" a ").data = ' ' :: 'a' :: ' ' :: [] := rfl
    rw [hstr] at h2
    unfold pySlice at h2
    have hBv : pyNorm s1.length (es : Int) = min s1.length es := by
      rw [pyNorm_of_nonneg _ _ (by omega)]
      omega
    rw [hBv] at h2
    generalize hA : pyNorm s1.length ((es : Int) - 3) = A at h2
    have hlen := congrArg List.length h2
    simp only [lowerLC, List.length_map, slice_length, List.length_cons,
      List.length_nil] at hlen
    have hes3 : 3 ≤ es := by omega
    have hAv : A = min s1.length (es - 3) := by
      rw [← hA, pyNorm_of_nonneg _ _ (by omega)]
      omega
    have hget := congrArg (fun l => l[2]?) h2
    simp only [lowerLC, List.getElem?_map] at hget
    have hr : (' ' :: 'a' :: ' ' :: [] : List Char)[2]? = some ' ' := rfl
    rw [hr] at hget
    unfold slice at hget
    rw [List.getElem?_take, if_pos (by omega), List.getElem?_drop] at hget
    have hidx : A + 2 = es - 1 := by omega
    rw [hidx] at hget
    obtain ⟨cw, hcw, hcl⟩ := Option.map_eq_some'.mp hget
    exact ⟨by omega, cw, hcw, hcl⟩

theorem slice_mid_at (u x y : List Char) (a b : Nat)
    (ha : a = u.length) (hb : b = u.length + x.length) :
    slice (u ++ (x ++ y)) a b = x := by
  subst ha
  subst hb
  exact slice_mid u x y

theorem get_mid_r (u v w : List Char) (j : Nat) (h1 : u.length ≤ j)
    (h2 : j < u.length + v.length) :
    (u ++ (v ++ w))[j]? = v[j - u.length]? := by
  rw [← List.append_assoc]
  exact get_mid u v w j h1 h2

theorem mlower_getLast_eq (tl : Bool) (x : List Char) (c : Char)
    (h : x.getLast? = some c) :
    (mlower tl x).getLast? = some (if tl then c.toLower else c) := by
  cases tl
  · simpa [mlower] using h
  · simp [mlower, lowerLC, List.getLast?_map, h]

theorem exit_ok (tl : Bool) (s : List Char) (acc : List Span) (i : Nat)
    (hacc : ∀ sp ∈ acc, spanOk tl s i sp) :
    ∀ sp ∈ acc, spanFinal (mlower tl s) sp := by
  intro sp hsp
  obtain ⟨h1, h2, h3, h4, h5⟩ := hacc sp hsp
  refine ⟨h1, ?_, ?_⟩
  · rw [mlower_length]
    exact h3
  · rw [mlower_slice]
    exact h4

theorem inv_step_sub (tl : Bool) (s v w : List Char) (acc : List Span)
    (i es : Nat) (ename : List Char)
    (hesl : es ≤ s.length) (hies : i ≤ es)
    (hacc : ∀ sp ∈ acc, spanOk tl s i sp)
    (hvlast : ∀ c, v.getLast? = some c → c.isWhitespace = false) :
    ∀ sp ∈ acc ++ [mkSp ename v es tl],
      spanOk tl (s.take es ++ v ++ w) (es + v.length) sp := by
  have hu : (s.take es).length = es := by
    rw [List.length_take]
    omega
  have hL : (s.take es ++ v ++ w).length = es + v.length + w.length := by
    rw [List.length_append, List.length_append, hu]
  intro sp hsp
  rcases List.mem_append.mp hsp with hold | hnew
  · obtain ⟨h1, h2, h3, h4, h5⟩ := hacc sp hold
    refine ⟨h1, by omega, by omega, ?_, h5⟩
    rw [editPres_slice s v w es _ _ hesl (by omega)]
    exact h4
  · simp only [List.mem_cons, List.not_mem_nil, or_false] at hnew
    subst hnew
    simp only [spanOk, mkSp]
    refine ⟨?_, ?_, ?_, ?_, ?_⟩
    · cases tl <;> simp [lowerLC]
    · omega
    · rw [hL]
      omega
    · rw [List.append_assoc, slice_mid_at (s.take es) v w es _ hu.symm (by rw [hu])]
      rfl
    · intro c hc
      obtain ⟨d, hd, hcd⟩ := mlower_getLast tl v c hc
      cases tl
      · simp at hcd
        rw [hcd]
        exact hvlast d hd
      · simp only [ite_true] at hcd
        rw [hcd]
        exact toLower_not_ws d (hvlast d hd)

theorem nb_step_sub (s v w : List Char) (es : Nat)
    (hesl : es ≤ s.length)
    (hnbs : ∀ j, j < es → s[j]? ≠ some lbrace)
    (hvb : ¬ lbrace ∈ v) :
    ∀ j, j < es + v.length → (s.take es ++ v ++ w)[j]? ≠ some lbrace := by
  have hu : (s.take es).length = es := by
    rw [List.length_take]
    omega
  intro j hj
  by_cases hje : j < es
  · rw [editPres_get s v w es j hesl hje]
    exact hnbs j hje
  · rw [get_mid (s.take es) v w j (by omega) (by omega)]
    intro hcon
    obtain ⟨hlt, he⟩ := List.getElem?_eq_some.mp hcon
    exact hvb (he ▸ List.getElem_mem hlt)

theorem inv_step_art (tl : Bool) (s v w : List Char) (acc : List Span)
    (i es : Nat) (ename : List Char)
    (hesl : es ≤ s.length) (hies : i ≤ es) (hes2 : 2 ≤ es)
    (hacc : ∀ sp ∈ acc, spanOk tl s i sp)
    (hws : ∃ cw, s[es - 1]? = some cw ∧ cw.toLower = ' ')
    (hvlast : ∀ c, v.getLast? = some c → c.isWhitespace = false) :
    ∀ sp ∈ acc ++ [mkSp ename v (es + 1) tl],
      spanOk tl (s.take (es - 1) ++ ('n' :: ' ' :: []) ++ (v ++ w))
        (es + 1 + v.length) sp := by
  have hu : (s.take (es - 1)).length = es - 1 := by
    rw [List.length_take]
    omega
  have hu2 : (s.take (es - 1) ++ ('n' :: ' ' :: [])).length = es + 1 := by
    rw [List.length_append, hu]
    simp only [List.length_cons, List.length_nil]
    omega
  have hL : (s.take (es - 1) ++ ('n' :: ' ' :: []) ++ (v ++ w)).length =
      es + 1 + v.length + w.length := by
    rw [List.length_append, hu2, List.length_append]
    omega
  intro sp hsp
  rcases List.mem_append.mp hsp with hold | hnew
  · obtain ⟨h1, h2, h3, h4, h5⟩ := hacc sp hold
    by_cases hend : sp.end_position ≤ es - 1
    · refine ⟨h1, by omega, by omega, ?_, h5⟩
      rw [editPres_slice s ('n' :: ' ' :: []) (v ++ w) (es - 1) _ _ (by omega) hend]
      exact h4
    · have hende : sp.end_position = es := by omega
      by_cases hvempty : sp.entity_value = []
      · refine ⟨h1, by omega, by omega, ?_, h5⟩
        have hse : sp.start_position = sp.end_position := by
          rw [h1, hvempty]
          simp
        rw [slice_nil_of_ge _ _ _ (by omega), mlower_nil]
        exact hvempty.symm
      · exfalso
        have hlenv : 1 ≤ sp.entity_value.length :=
          List.length_pos.mpr hvempty
        have hstart : sp.start_position < es := by omega
        obtain ⟨cw, hcw, hcwl⟩ := hws
        have hsl := slice_last s sp.start_position es hstart (by omega)
        rw [hcw] at hsl
        rw [hende] at h4
        have hvl := mlower_getLast_eq tl (slice s sp.start_position es)
          cw hsl
        rw [h4] at hvl
        have hbad := h5 _ hvl
        cases tl
        · simp at hbad
          have hcsp : cw = ' ' := toLower_eq_space cw hcwl
          rw [hcsp] at hbad
          exact absurd hbad (by decide)
        · simp only [ite_true] at hbad
          rw [hcwl] at hbad
          exact absurd hbad (by decide)
  · simp only [List.mem_cons, List.not_mem_nil, or_false] at hnew
    subst hnew
    simp only [spanOk, mkSp]
    refine ⟨?_, ?_, ?_, ?_, ?_⟩
    · cases tl <;> simp [lowerLC]
    · omega
    · rw [hL]
      omega
    · rw [slice_mid_at (s.take (es - 1) ++ ('n' :: ' ' :: [])) v w
        (es + 1) _ hu2.symm (by rw [hu2])]
      rfl
    · intro c hc
      obtain ⟨d, hd, hcd⟩ := mlower_getLast tl v c hc
      cases tl
      · simp at hcd
        rw [hcd]
        exact hvlast d hd
      · simp only [ite_true] at hcd
        rw [hcd]
        exact toLower_not_ws d (hvlast d hd)

theorem nb_step_art (s v w : List Char) (es : Nat)
    (hesl : es ≤ s.length) (hes2 : 2 ≤ es)
    (hnbs : ∀ j, j < es → s[j]? ≠ some lbrace)
    (hvb : ¬ lbrace ∈ v) :
    ∀ j, j < es + 1 + v.length →
      (s.take (es - 1) ++ ('n' :: ' ' :: []) ++ (v ++ w))[j]? ≠ some lbrace := by
  have hu : (s.take (es - 1)).length = es - 1 := by
    rw [List.length_take]
    omega
  have hu2 : (s.take (es - 1) ++ ('n' :: ' ' :: [])).length = es + 1 := by
    rw [List.length_append, hu]
    simp only [List.length_cons, List.length_nil]
    omega
  intro j hj
  by_cases hj1 : j < es - 1
  · rw [editPres_get s ('n' :: ' ' :: []) (v ++ w) (es - 1) j (by omega) hj1]
    exact hnbs j (by omega)
  · by_cases hj2 : j < es + 1
    · rw [get_mid (s.take (es - 1)) ('n' :: ' ' :: []) (v ++ w) j (by omega)
        (by simp only [List.length_cons, List.length_nil]; omega)]
      intro hcon
      obtain ⟨hlt, he⟩ := List.getElem?_eq_some.mp hcon
      have hmem := he ▸ List.getElem_mem hlt
      simp only [List.mem_cons, List.not_mem_nil, or_false] at hmem
      rcases hmem with hx | hx <;> exact absurd hx (by decide)
    · rw [get_mid_r (s.take (es - 1) ++ ('n' :: ' ' :: [])) v w j (by omega)
        (by omega)]
      intro hcon
      obtain ⟨hlt, he⟩ := List.getElem?_eq_some.mp hcon
      exact hvb (he ▸ List.getElem_mem hlt)

theorem edit_length (s v w : List Char) (es : Nat) (hesl : es ≤ s.length) :
    (s.take es ++ v ++ w).length = es + v.length + w.length := by
  rw [List.length_append, List.length_append, List.length_take]
  omega

theorem renderLoop_good (values : List (List Char × List Char)) (tl : Bool)
    (hv : ∀ kv ∈ values, ¬ lbrace ∈ kv.2) :
    ∀ (fuel : Nat) (s : List Char) (acc : List Span) (i : Nat),
      (∀ sp ∈ acc, spanOk tl s i sp) →
      (∀ j, j < i → s[j]? ≠ some lbrace) →
      ∀ (ft : List Char) (spans : List Span),
        renderLoop values tl fuel s acc i = Except.ok (ft, spans) →
        ∀ sp ∈ spans, spanFinal ft sp := by
  intro fuel
  induction fuel with
  | zero =>
    intro s acc i hacc hnb ft spans h
    simp [renderLoop] at h
  | succ fuel ih =>
    intro s acc i hacc hnb ft spans h
    rw [renderLoop] at h
    by_cases hi : i < s.length
    · rw [if_pos hi] at h
      split at h
      · simp only [finalizeR, Except.ok.injEq, Prod.mk.injEq] at h
        obtain ⟨hft, hspans⟩ := h
        subst hspans
        intro sp hsp
        have hfin := exit_ok tl s acc i hacc sp hsp
        rw [← hft]
        exact hfin
      · rename_i es hes
        split at h
        · simp at h
        · rename_i o heo
          simp only [] at h
          split at h
          · simp at h
          · rename_i v0 hlv
            obtain ⟨hesb, hgets, hmin⟩ := firstIdxOf_spec lbrace s es hes
            have hesl : es ≤ s.length := le_of_lt hesb
            have hies : i ≤ es := by
              by_contra hcon
              exact hnb es (by omega) hgets
            have hvb : ¬ lbrace ∈ pyStrip v0 := by
              intro hm
              exact hv _ (lookupV_mem values _ v0 hlv) (mem_pyStrip v0 lbrace hm)
            have hvlast : ∀ c, (pyStrip v0).getLast? = some c →
                c.isWhitespace = false := fun c hc => pyStrip_getLast v0 c hc
            split at h
            · rename_i hart
              split at h
              · simp at h
              · rename_i c cs hv0
                rw [hv0] at hvb hvlast hart h
                obtain ⟨hes2, cw, hcw, hcwl⟩ := artCond_facts _ es hart
                rw [editPres_get s (c :: cs) (s.drop (es + o + 1)) es (es - 1)
                  hesl (by omega)] at hcw
                have hws : ∃ d, s[es - 1]? = some d ∧ d.toLower = ' ' :=
                  ⟨cw, hcw, hcwl⟩
                split at h
                · rename_i hvow
                  have hcast : ((es : Int) - 1) = (((es - 1 : Nat)) : Int) := by
                    omega
                  rw [hcast, pySlice_init _ _ (by
                      rw [edit_length s (c :: cs) (s.drop (es + o + 1)) es hesl]
                      omega),
                    take_edit s (c :: cs) (s.drop (es + o + 1)) es (es - 1) hesl
                      (by omega),
                    drop_edit s (c :: cs) (s.drop (es + o + 1)) es hesl] at h
                  exact ih _ _ _
                    (inv_step_art tl s (c :: cs) (s.drop (es + o + 1)) acc i es _
                      hesl hies hes2 hacc hws hvlast)
                    (nb_step_art s (c :: cs) (s.drop (es + o + 1)) es hesl hes2
                      hmin hvb)
                    ft spans h
                · rename_i hvow
                  exact ih _ _ _
                    (inv_step_sub tl s (c :: cs) (s.drop (es + o + 1)) acc i es _
                      hesl hies hacc hvlast)
                    (nb_step_sub s (c :: cs) (s.drop (es + o + 1)) es hesl hmin hvb)
                    ft spans h
            · rename_i hart
              exact ih _ _ _
                (inv_step_sub tl s (pyStrip v0) (s.drop (es + o + 1)) acc i es _
                  hesl hies hacc hvlast)
                (nb_step_sub s (pyStrip v0) (s.drop (es + o + 1)) es hesl hmin hvb)
                ft spans h
    · rw [if_neg hi] at h
      simp only [finalizeR, Except.ok.injEq, Prod.mk.injEq] at h
      obtain ⟨hft, hspans⟩ := h
      subst hspans
      intro sp hsp
      have hfin := exit_ok tl s acc i hacc sp hsp
      rw [← hft]
      exact hfin

/-- C1 (amended): for every successfully rendered sample whose substitution
values are brace-free, every span satisfies start <= end <= len(full_text)
and full_text[start:end] = entity_value, with the per-sample lower-casing
applied consistently to the text and the stored values, and start < end
whenever the value is nonempty.  The spec's strict start < end fails for a
placeholder that resolves to the empty string (see c1_counterexample). -/
theorem c1_amended (t : List Char) (values : List (List Char × List Char))
    (tl : Bool) (hv : ∀ kv ∈ values, ¬ lbrace ∈ kv.2)
    (ft : List Char) (spans : List Span)
    (h : render t values tl = Except.ok (ft, spans)) :
    ∀ sp ∈ spans,
      sp.start_position ≤ sp.end_position ∧
      sp.end_position ≤ ft.length ∧
      slice ft sp.start_position sp.end_position = sp.entity_value ∧
      (sp.entity_value ≠ [] → sp.start_position < sp.end_position) := by
  intro sp hsp
  have hg := renderLoop_good values tl hv (braceCount t + 1) t [] 0
    (by intro sp' hsp'; simp at hsp')
    (by intro j hj; exact absurd hj (Nat.not_lt_zero j))
    ft spans h sp hsp
  obtain ⟨h1, h2, h3⟩ := hg
  refine ⟨by omega, h2, h3, ?_⟩
  intro hne
  have hpos : 0 < sp.entity_value.length := List.length_pos.mpr hne
  omega

/-- Witness for C1 on "I saw a {ANIMAL}" with ANIMAL = "elephant": the span
recorded for the rendered text "I saw an elephant" covers offsets 9..17 and
matches the value. -/
theorem c1_witness :
    (9 : Nat) ≤ 17 ∧ (17 : Nat) ≤ (("I saw an elephant").data).length ∧
    slice (("I saw an elephant").data) 9 17 = ("elephant").data ∧
    (("elephant").data ≠ [] → (9 : Nat) < 17) :=
  c1_amended (("I saw a {ANIMAL}").data)
    [((("ANIMAL").data), ("elephant").data)] false (by decide)
    (("I saw an elephant").data)
    [{ entity_type := ("ANIMAL").data, entity_value := ("elephant").data,
       start_position := 9, end_position := 17 }]
    (by decide)
    { entity_type := ("ANIMAL").data, entity_value := ("elephant").data,
      start_position := 9, end_position := 17 }
    (by simp)

end AddrGen
